import Mathlib

/-!
# Verification of the k6foundry build-environment orchestrator

A shallow embedding of the string-level algorithms of the k6foundry /
k6build repository (module reference parsing, semantic-version
normalization, versioned import paths, manifest-edit argument
construction, environment composition) together with abstract models of
its effectful parts (the process supervisor's select logic and the
native builder's step sequence).

Go strings are modelled as `List Char`; the sources only ever treat the
relevant strings as sequences of ASCII characters, and `List Char` makes
the byte-level index manipulation of the Go sources directly expressible.
Library functions the sources call (`golang.org/x/mod/semver`,
`golang.org/x/mod/module`, `path/filepath`, `strings`) are embedded from
their upstream sources, since the repository's behavior depends on them.
-/

/-- Go strings, modelled as lists of characters. -/
abbrev GoStr := List Char

deriving instance DecidableEq for Except

/-- ASCII decimal digit test, as used throughout `x/mod` (`'0' <= c && c <= '9'`). -/
def isDigit (c : Char) : Bool := '0' ≤ c ∧ c ≤ '9'

namespace Semver

/-!
Embedding of `golang.org/x/mod/semver`: the internal `parse` function and
the exported `IsValid`, `Major` and `Canonical` built on it.
-/

/-- Result of `semver.parse`: the decomposed version. `short` is the
suffix that `Canonical` must append when minor/patch were omitted. -/
structure Parsed where
  major : GoStr
  minor : GoStr
  patch : GoStr
  short : GoStr
  prerelease : GoStr
  build : GoStr
deriving DecidableEq, Repr

/-- `semver.parseInt`: longest digit run, rejecting empty runs and
leading zeros (a run starting with a zero must be exactly one digit). -/
def parseInt (v : GoStr) : Option (GoStr × GoStr) :=
  match v with
  | [] => none
  | c :: _ =>
    if ¬ isDigit c then none
    else
      let t := v.takeWhile isDigit
      if c = '0' ∧ t.length ≠ 1 then none
      else some (t, v.dropWhile isDigit)

/-- `semver.isIdentChar`: ASCII letters, digits and hyphen. -/
def isIdentChar (c : Char) : Bool :=
  ('A' ≤ c ∧ c ≤ 'Z') ∨ ('a' ≤ c ∧ c ≤ 'z') ∨ isDigit c ∨ c = '-'

/-- `semver.isBadNum`: an all-digit identifier longer than one character
starting with zero. -/
def isBadNum (v : GoStr) : Bool :=
  v.all isDigit ∧ v.length > 1 ∧ v.head? = some '0'

/-- Validity of one prerelease body: chars restricted to identifier
chars and dots, dot-separated segments nonempty and not bad numbers.
This is the loop of `semver.parsePrerelease` expressed on the scanned
body. -/
def preBodyOK (body : GoStr) : Bool :=
  body.all (fun c => isIdentChar c ∨ c = '.') ∧
    (body.splitOn '.').all (fun seg => ¬ seg.isEmpty ∧ ¬ isBadNum seg)

/-- `semver.parsePrerelease`: consumes a leading `'-'` and the dotted
identifier list up to a `'+'` or the end of the string. -/
def parsePrerelease (v : GoStr) : Option (GoStr × GoStr) :=
  match v with
  | [] => none
  | c :: tail =>
    if ¬ c = '-' then none
    else
      let body := tail.takeWhile (fun x => x ≠ '+')
      if preBodyOK body then some (c :: body, tail.dropWhile (fun x => x ≠ '+'))
      else none

/-- Validity of a build-metadata body: identifier chars and dots,
segments nonempty (leading zeros permitted). -/
def buildBodyOK (body : GoStr) : Bool :=
  body.all (fun c => isIdentChar c ∨ c = '.') ∧
    (body.splitOn '.').all (fun seg => ¬ seg.isEmpty)

/-- `semver.parseBuild`: consumes a leading `'+'` and the rest of the
string as dotted identifiers. -/
def parseBuild (v : GoStr) : Option (GoStr × GoStr) :=
  match v with
  | [] => none
  | c :: tail =>
    if ¬ c = '+' then none
    else if buildBodyOK tail then some (c :: tail, []) else none

/-- The optional-prerelease step of `semver.parse`
(`if len(v) > 0 && v[0] == '-'`). -/
def parsePreStep (v : GoStr) : Option (GoStr × GoStr) :=
  match v with
  | [] => some ([], v)
  | c :: _ => if c = '-' then parsePrerelease v else some ([], v)

/-- The optional-build step of `semver.parse`
(`if len(v) > 0 && v[0] == '+'`). -/
def parseBuildStep (v : GoStr) : Option (GoStr × GoStr) :=
  match v with
  | [] => some ([], v)
  | c :: _ => if c = '+' then parseBuild v else some ([], v)

/-- `semver.parse`: major, then optional `.minor`, then optional
`.patch`, then optional prerelease and build; trailing garbage rejected. -/
def parse (v : GoStr) : Option Parsed :=
  match v with
  | [] => none
  | c0 :: tail =>
    if ¬ c0 = 'v' then none
    else
      match parseInt tail with
      | none => none
      | some (major, v1) =>
        match v1 with
        | [] =>
          some ⟨major, ['0'], ['0'], '.' :: '0' :: '.' :: '0' :: [], [], []⟩
        | c1 :: v2 =>
          if ¬ c1 = '.' then none
          else
            match parseInt v2 with
            | none => none
            | some (minor, v3) =>
              match v3 with
              | [] => some ⟨major, minor, ['0'], '.' :: '0' :: [], [], []⟩
              | c2 :: v4 =>
                if ¬ c2 = '.' then none
                else
                  match parseInt v4 with
                  | none => none
                  | some (patch, v5) =>
                    match parsePreStep v5 with
                    | none => none
                    | some (pre, v6) =>
                      match parseBuildStep v6 with
                      | none => none
                      | some (bld, v7) =>
                        if v7 = [] then some ⟨major, minor, patch, [], pre, bld⟩
                        else none

/-- `semver.IsValid`. -/
def IsValid (v : GoStr) : Bool := (parse v).isSome

/-- `semver.Major`: the `vN` prefix of a valid version, empty otherwise. -/
def Major (v : GoStr) : GoStr :=
  match parse v with
  | none => []
  | some p => v.take (1 + p.major.length)

/-- `semver.Canonical`: strip build metadata, complete missing
minor/patch with zeros. -/
def Canonical (v : GoStr) : GoStr :=
  match parse v with
  | none => []
  | some p =>
    if p.build ≠ [] then v.take (v.length - p.build.length)
    else if p.short ≠ [] then v ++ p.short
    else v

end Semver

example : Semver.IsValid "v1.2.3".toList = true := by decide
example : Semver.IsValid "v0.1".toList = true := by decide
example : Semver.IsValid "latest".toList = false := by decide
example : Semver.IsValid "v1".toList = true := by decide
example : Semver.IsValid "v".toList = false := by decide
example : Semver.IsValid "1".toList = false := by decide
example : Semver.IsValid "v01.2.3".toList = false := by decide
example : Semver.IsValid "v1.2.3-pre.1".toList = true := by decide
example : Semver.IsValid "v1.2.3-pre.01".toList = false := by decide
example : Semver.IsValid "v1.2.3+meta".toList = true := by decide
example : Semver.IsValid "v1.2-pre".toList = false := by decide
example : Semver.Canonical "v0.1".toList = "v0.1.0".toList := by decide
example : Semver.Canonical "v2".toList = "v2.0.0".toList := by decide
example : Semver.Canonical "v1.2.3+meta".toList = "v1.2.3".toList := by decide
example : Semver.Canonical "v1.2.3-rc.1".toList = "v1.2.3-rc.1".toList := by decide
example : Semver.Major "v2.0.0".toList = "v2".toList := by decide
example : Semver.Major "v10.1.2".toList = "v10".toList := by decide

namespace Filepath

/-!
Embedding of the pieces of Go's `path/filepath` used by the repository
(on a Unix separator, i.e. `'/'`): `Base`, `Join` and the `Clean`
normalization `Join` performs.
-/

/-- Split a string at every `'/'`; always returns a nonempty list whose
pieces are separator-free, with `joinSlash` as its inverse. -/
def splitSlash : GoStr → List GoStr
  | [] => [[]]
  | c :: rest =>
    let r := splitSlash rest
    if c = '/' then [] :: r
    else (c :: r.headI) :: r.tail

/-- Join pieces with `'/'` separators (inverse of `splitSlash`). -/
def joinSlash : List GoStr → GoStr
  | [] => []
  | [s] => s
  | s :: ss => s ++ '/' :: joinSlash ss

/-- The element-processing loop of `filepath.Clean`: drop empty and
`"."` components, let `".."` pop a previous component (except at the
root of a rooted path, where it disappears, and at the head of a
relative path, where it is kept). `out` is the stack of kept components
in reverse order. -/
def cleanAux (rooted : Bool) (out : List GoStr) : List GoStr → List GoStr
  | [] => out.reverse
  | c :: cs =>
    if c = [] ∨ c = ['.'] then cleanAux rooted out cs
    else if c = ['.', '.'] then
      match out with
      | [] => if rooted then cleanAux rooted [] cs else cleanAux rooted [c] cs
      | top :: rest =>
        if top = ['.', '.'] then cleanAux rooted (c :: out) cs
        else cleanAux rooted rest cs
    else cleanAux rooted (c :: out) cs

/-- `filepath.Clean` (Unix rules): shortest lexically equivalent path. -/
def clean (p : GoStr) : GoStr :=
  if p = [] then ['.']
  else
    let rooted := p.head? = some '/'
    let out := cleanAux rooted [] (splitSlash p)
    let res := (if rooted then ['/'] else []) ++ joinSlash out
    if res = [] then ['.'] else res

/-- `filepath.Base` (Unix rules): strip trailing separators, then take
everything after the final separator. -/
def Base (p : GoStr) : GoStr :=
  if p = [] then ['.']
  else
    let p1 := (p.reverse.dropWhile (fun c => c = '/')).reverse
    let after := (p1.reverse.takeWhile (fun c => c ≠ '/')).reverse
    if after = [] then ['/'] else after

/-- `filepath.Join` for two elements: empty elements are skipped, the
rest are joined with a separator and cleaned. -/
def Join (a b : GoStr) : GoStr :=
  if a = [] ∧ b = [] then []
  else if a = [] then clean b
  else if b = [] then clean a
  else clean (a ++ '/' :: b)

end Filepath

example : Filepath.clean "a//b/./c/d/../e".toList = "a/b/c/e".toList := by decide
example : Filepath.clean "/../a".toList = "/a".toList := by decide
example : Filepath.clean "a/..".toList = ".".toList := by decide
example : Filepath.clean "a/../../b".toList = "../b".toList := by decide
example : Filepath.clean "/".toList = "/".toList := by decide
example : Filepath.Base "a/b/v2".toList = "v2".toList := by decide
example : Filepath.Base "a//v2".toList = "v2".toList := by decide
example : Filepath.Base "a/b/".toList = "b".toList := by decide
example : Filepath.Base "///".toList = "/".toList := by decide
example : Filepath.Join "foo".toList "v2".toList = "foo/v2".toList := by decide
example : Filepath.Join "".toList "v2".toList = "v2".toList := by decide
example : Filepath.Join "a/./b".toList "v2".toList = "a/b/v2".toList := by decide

namespace GoModule

/-!
Embedding of `golang.org/x/mod/module.CheckPath` and its helpers
(`checkPath`, `checkElem`, `modPathOK`, `firstPathOK`,
`SplitPathVersion`, `splitGopkgIn`). Inputs are `List Char`, so the
`utf8.ValidString` precondition of the Go code holds by construction.
-/

/-- `module.modPathOK`: characters allowed anywhere in a module path
element. -/
def modPathOK (c : Char) : Bool :=
  c = '-' ∨ c = '.' ∨ c = '_' ∨ c = '~' ∨
    ('0' ≤ c ∧ c ≤ '9') ∨ ('A' ≤ c ∧ c ≤ 'Z') ∨ ('a' ≤ c ∧ c ≤ 'z')

/-- `module.firstPathOK`: characters allowed in the first (domain-like)
path element. -/
def firstPathOK (c : Char) : Bool :=
  c = '-' ∨ c = '.' ∨ ('0' ≤ c ∧ c ≤ '9') ∨ ('a' ≤ c ∧ c ≤ 'z')

/-- Reserved Windows file names rejected by `module.checkElem`. -/
def badWindowsNames : List GoStr :=
  ["CON".toList, "PRN".toList, "AUX".toList, "NUL".toList,
   "COM0".toList, "COM1".toList, "COM2".toList, "COM3".toList, "COM4".toList,
   "COM5".toList, "COM6".toList, "COM7".toList, "COM8".toList, "COM9".toList,
   "LPT0".toList, "LPT1".toList, "LPT2".toList, "LPT3".toList, "LPT4".toList,
   "LPT5".toList, "LPT6".toList, "LPT7".toList, "LPT8".toList, "LPT9".toList]

/-- ASCII-case-insensitive equality (`strings.EqualFold` restricted to
the ASCII names it is compared against here). -/
def equalFold (a b : GoStr) : Bool :=
  a.map Char.toLower = b.map Char.toLower

/-- `module.checkElem` for module paths: nonempty, not all dots, no
leading or trailing dot, only `modPathOK` characters, not a reserved
Windows name, and no Windows short-name tilde suffix. -/
def checkElem (elem : GoStr) : Bool :=
  ¬ elem.isEmpty ∧
  ¬ (elem.count '.' = elem.length) ∧
  ¬ elem.head? = some '.' ∧
  ¬ elem.getLast? = some '.' ∧
  elem.all modPathOK ∧
  (let short := elem.takeWhile (fun c => c ≠ '.')
   ¬ badWindowsNames.any (fun bad => equalFold bad short) ∧
   ¬ (let post := (short.reverse.takeWhile (fun c => c ≠ '~')).reverse
      (short.contains '~' ∧ ¬ post.isEmpty ∧ post.all isDigit)))

/-- `strings.Contains(path, "//")`. -/
def hasDoubleSlash : GoStr → Bool
  | [] => false
  | [_] => false
  | a :: b :: rest => (a = '/' ∧ b = '/') ∨ hasDoubleSlash (b :: rest)

/-- `module.checkPath` for module paths: nonempty, no leading dash, no
double or trailing separator, and every element valid. -/
def checkPath (path : GoStr) : Bool :=
  ¬ path.isEmpty ∧
  ¬ path.head? = some '-' ∧
  ¬ hasDoubleSlash path ∧
  ¬ path.getLast? = some '/' ∧
  (Filepath.splitSlash path).all checkElem

/-- `module.splitGopkgIn`: the `gopkg.in` special case of
`SplitPathVersion` — such paths must end in `.vN` (optionally followed
by `-unstable`). -/
def splitGopkgIn (path : GoStr) : GoStr × GoStr × Bool :=
  if ¬ List.isPrefixOf "gopkg.in/".toList path then (path, [], false)
  else
    let trimmed :=
      if List.isSuffixOf "-unstable".toList path
      then path.take (path.length - 9) else path
    let stem := (trimmed.reverse.dropWhile isDigit).reverse
    if stem.length ≤ 1 ∨ ¬ stem.getLast? = some 'v' ∨
        ¬ stem.dropLast.getLast? = some '.' then (path, [], false)
    else (path.take (stem.length - 2), path.drop (stem.length - 2), true)

/-- `module.SplitPathVersion`: split a trailing `/vN` major-version
suffix off a module path; `.2.2 = false` means the path has a malformed
version suffix (e.g. `/v1`, `/v02`, or a dotted suffix). -/
def SplitPathVersion (path : GoStr) : GoStr × GoStr × Bool :=
  if List.isPrefixOf "gopkg.in/".toList path then splitGopkgIn path
  else
    let digitsOrDots := path.reverse.takeWhile (fun c => isDigit c ∨ c = '.')
    let stem := (path.reverse.dropWhile (fun c => isDigit c ∨ c = '.')).reverse
    if stem.length ≤ 1 ∨ digitsOrDots = [] ∨ ¬ stem.getLast? = some 'v' ∨
        ¬ stem.dropLast.getLast? = some '/' then (path, [], true)
    else
      let pathMajor := '/' :: 'v' :: digitsOrDots.reverse
      if digitsOrDots.contains '.' ∨ pathMajor.length ≤ 2 ∨
          pathMajor.get? 2 = some '0' ∨ pathMajor = "/v1".toList
      then (path, [], false)
      else (stem.dropLast.dropLast, pathMajor, true)

/-- `module.CheckPath`: a valid module path — `checkPath` plus the
domain-like first element rules plus a well-formed major-version
suffix. -/
def CheckPath (path : GoStr) : Bool :=
  checkPath path ∧
  (let first := path.takeWhile (fun c => c ≠ '/')
   ¬ first.isEmpty ∧ first.contains '.' ∧ ¬ path.head? = some '-' ∧
     first.all firstPathOK) ∧
  (SplitPathVersion path).2.2

end GoModule

example : GoModule.CheckPath "github.com/path/module".toList = true := by decide
example : GoModule.CheckPath "github.com".toList = true := by decide
example : GoModule.CheckPath "github.com/".toList = false := by decide
example : GoModule.CheckPath "github.com//mod".toList = false := by decide
example : GoModule.CheckPath "github.com/path/v2".toList = true := by decide
example : GoModule.CheckPath "github.com/path/v1".toList = false := by decide
example : GoModule.CheckPath "github.com/path/v02".toList = false := by decide
example : GoModule.CheckPath "nodots/mod".toList = false := by decide
example : GoModule.CheckPath "go.k6.io/k6".toList = true := by decide
example : GoModule.CheckPath "a.com/CON/x".toList = false := by decide
example : GoModule.CheckPath "a.com/foo~1".toList = false := by decide
example : GoModule.CheckPath "a.com/.dot".toList = false := by decide
example : GoModule.CheckPath "Upper.com/x".toList = false := by decide
example : GoModule.CheckPath "a.com/Upper".toList = true := by decide

namespace K6

/-!
Embedding of the repository's own string-level code: `module.go` /
`dependency.go` (`Module`, `ParseModule`, `versionedPath`) and the
manifest-edit argument construction of `goenv.go` (`modRequire`).
-/

/-- `strings.Cut(s, "@")`: split at the first `'@'`. -/
def cutAt (s : GoStr) : GoStr × GoStr × Bool :=
  match s with
  | [] => ([], [], false)
  | c :: rest =>
    if c = '@' then ([], rest, true)
    else
      let r := cutAt rest
      (c :: r.1, r.2.1, r.2.2)

/-- `strings.Cut(s, "=")`: split at the first `'='`. -/
def cutEq (s : GoStr) : GoStr × GoStr × Bool :=
  match s with
  | [] => ([], [], false)
  | c :: rest =>
    if c = '=' then ([], rest, true)
    else
      let r := cutEq rest
      (c :: r.1, r.2.1, r.2.2)

/-- The error values of `module.go` / `dependency.go`. -/
inductive ParseErr where
  | invalidFormat
  | invalidVersion
  | invalidPath
deriving DecidableEq, Repr

/-- `Module`: a go module reference (import path and version). -/
structure Module where
  PackagePath : GoStr
  Version : GoStr
deriving DecidableEq, Repr

/-- `moduleVersionRegexp.MatchString(path)` for the pattern
`.+/v(\d+)$`: the path ends in `/v` followed by one or more ASCII
digits, preceded by at least one character, which (because `.` does not
match a newline) must not be a newline. -/
def hasMajorSuffix (p : GoStr) : Bool :=
  let r := p.reverse
  let digits := r.takeWhile isDigit
  match r.dropWhile isDigit with
  | 'v' :: '/' :: c :: _ => ¬ digits.isEmpty ∧ ¬ c = '\n'
  | _ => false

/-- `versionedPath` (module.go) / `versionedModulePath` (native.go):
add the major component of a valid version to a path lacking one, check
consistency of a path that already carries one. `none` is the error
return. -/
def versionedPath (path version : GoStr) : Option GoStr :=
  if ¬ Semver.IsValid version then some path
  else if hasMajorSuffix path then
    if ¬ Filepath.Base path = Semver.Major version then none
    else some path
  else if Semver.Major version = "v0".toList ∨
      Semver.Major version = "v1".toList then some path
  else some (Filepath.Join path (Semver.Major version))

/-- The version switch of `ParseModule`: empty becomes `latest`,
`latest` passes through, anything else must be valid semver and is
canonicalized. -/
def versionCheck (version0 : GoStr) : Except ParseErr GoStr :=
  if version0 = [] then .ok "latest".toList
  else if version0 = "latest".toList then .ok version0
  else if ¬ Semver.IsValid version0 then .error .invalidVersion
  else .ok (Semver.Canonical version0)

/-- `ParseModule` (dependency.go, and the second module.go revision):
split `path[@version]`, normalize the version through the switch, then
validate the path. -/
def ParseModule (mod : GoStr) : Except ParseErr Module :=
  if (cutAt mod).2.2 ∧ ((cutAt mod).1 = [] ∨ (cutAt mod).2.1 = []) then
    .error .invalidFormat
  else
    match versionCheck (cutAt mod).2.1 with
    | .error e => .error e
    | .ok version =>
      if GoModule.CheckPath (cutAt mod).1 then .ok ⟨(cutAt mod).1, version⟩
      else .error .invalidPath

/-- `modRequire` (goenv.go, k6foundry revision): the argument handed to
the manifest edit command — the version is appended only when nonempty. -/
def modRequireArg (modulePath moduleVersion : GoStr) : GoStr :=
  if ¬ moduleVersion = [] then modulePath ++ '@' :: moduleVersion
  else modulePath

/-- `modRequire` (the earlier k6build goenv revision): an empty version
defaults to `@latest`. -/
def modRequireArgLegacy (modulePath moduleVersion : GoStr) : GoStr :=
  if ¬ moduleVersion = [] then modulePath ++ '@' :: moduleVersion
  else modulePath ++ '@' :: "latest".toList

end K6

example : K6.ParseModule "github.com/path/module@v0.1.0".toList =
    .ok ⟨"github.com/path/module".toList, "v0.1.0".toList⟩ := by decide
example : K6.ParseModule "github.com/path/module@v0.1".toList =
    .ok ⟨"github.com/path/module".toList, "v0.1.0".toList⟩ := by decide
example : K6.ParseModule "github.com/path/module".toList =
    .ok ⟨"github.com/path/module".toList, "latest".toList⟩ := by decide
example : K6.ParseModule "github.com/path/module@latest".toList =
    .ok ⟨"github.com/path/module".toList, "latest".toList⟩ := by decide
example : K6.ParseModule "github.com/path/module@1".toList =
    .error .invalidVersion := by decide
example : K6.ParseModule "github.com/path/module@v".toList =
    .error .invalidVersion := by decide
example : K6.ParseModule "github.com/@v1".toList = .error .invalidPath := by decide
example : K6.ParseModule "github.com@v1".toList =
    .ok ⟨"github.com".toList, "v1.0.0".toList⟩ := by decide
example : K6.versionedPath "foo".toList "v1.0.0".toList = some "foo".toList := by decide
example : K6.versionedPath "foo".toList "v2.0.0".toList = some "foo/v2".toList := by decide
example : K6.versionedPath "foo/v2".toList "v3.0.0".toList = none := by decide
example : K6.versionedPath "foo/v2".toList "v2.1.5".toList = some "foo/v2".toList := by decide
example : K6.versionedPath "foo".toList "latest".toList = some "foo".toList := by decide

namespace ModuleSpec

/-- The module reference of the replace-grammar parser: import path and
version plus optional replacement path and version. -/
structure ModuleR where
  Path : GoStr
  Version : GoStr
  ReplacePath : GoStr
  ReplaceVersion : GoStr
deriving DecidableEq, Repr

/-- Modelled from the spec: the replace-grammar `ParseModule` of the
current k6foundry `module.go` is missing from the provided sources (only
its test table `module_test.go` is present). Following the spec's
grammar `path['='replacePath['@'replaceVersion]]['@'version]` and its
splitting rule (split on `'='` for the replacement before splitting on
`'@'` for versions): the part before `'='` is parsed as `path[@version]`
with the same version normalization and path validation as the plain
parser; the part after `'='` is split on `'@'` into replacement path and
replacement version; a local replacement path (prefix `'.'`) combined
with a nonempty replacement version is a format error, per the spec's
invariant. -/
def ParseModule (s : GoStr) : Except K6.ParseErr ModuleR :=
  if (K6.cutEq s).2.2 ∧
      (K6.cutAt (K6.cutEq s).2.1).1.head? = some '.' ∧
      ¬ (K6.cutAt (K6.cutEq s).2.1).2.1 = [] then
    .error .invalidFormat
  else
    match K6.ParseModule (K6.cutEq s).1 with
    | .error err => .error err
    | .ok m =>
      if (K6.cutEq s).2.2 then
        .ok ⟨m.PackagePath, m.Version, (K6.cutAt (K6.cutEq s).2.1).1,
          (K6.cutAt (K6.cutEq s).2.1).2.1⟩
      else .ok ⟨m.PackagePath, m.Version, [], []⟩

end ModuleSpec

example : ModuleSpec.ParseModule
    "github.com/path/module=github.com/another/module@v0.1.0".toList =
    .ok ⟨"github.com/path/module".toList, "latest".toList,
         "github.com/another/module".toList, "v0.1.0".toList⟩ := by decide
example : ModuleSpec.ParseModule
    "github.com/path/module=github.com/another/module".toList =
    .ok ⟨"github.com/path/module".toList, "latest".toList,
         "github.com/another/module".toList, []⟩ := by decide
example : ModuleSpec.ParseModule "github.com/path/module=./another/module".toList =
    .ok ⟨"github.com/path/module".toList, "latest".toList,
         "./another/module".toList, []⟩ := by decide
example : ModuleSpec.ParseModule
    "github.com/path/module=./another/module@v0.1.0".toList =
    .error .invalidFormat := by decide

namespace Supervisor

/-!
Model of the process supervisor `runGo` (goenv.go) / `runCommand`
(the earlier goenv revision) after a successful `cmd.Start()`. Time is
abstract (`Nat` instants); the `15 * time.Second` grace window is 15
units. Inputs describe one schedule: when (if ever) the ambient context
is cancelled, the per-call timeout (0 means none, mirroring the
`timeout > 0` guard), when the process exits on its own, and whether its
exit status is an error. Select races that are simultaneous in this
discrete time model (`exitAt = d` or `exitAt = d + graceWindow`) are
resolved in favor of the process-completion channel; the verified claims
only constrain the strict orderings. -/

/-- The fixed grace window (`15 * time.Second`). -/
def graceWindow : Nat := 15

/-- What the call returns: the natural-completion branch returns the
process's own error status, the other branch returns `ctx.Err()`. -/
inductive RunResult where
  | completed (procErr : Bool)
  | ctxDone
deriving DecidableEq, Repr

/-- Observable outcome of one supervised run: the returned value, the
time of a forced kill if one happened, how many times the process was
waited on, and whether the background waiter goroutine was joined
(its channel send received) before the call returned. -/
structure RunTrace where
  result : RunResult
  killTime : Option Nat
  waitCount : Nat
  waiterJoined : Bool
deriving DecidableEq, Repr

/-- The instant the (possibly timeout-wrapped) context fires:
`context.WithTimeout` is layered onto the ambient context only when
`timeout > 0`, so the effective deadline is the earlier of the two. -/
def effectiveDone (cancelAt : Option Nat) (timeout : Nat) : Option Nat :=
  if timeout = 0 then cancelAt
  else
    match cancelAt with
    | none => some timeout
    | some c => some (min c timeout)

/-- The two-level select of `runGo`/`runCommand`: the outer select races
process completion against context cancellation; on cancellation the
inner select races completion against the grace-window timer, killing
the process only when the timer fires first. Exactly one `cmd.Wait()`
happens (in the single spawned goroutine); the waiter is joined exactly
when some branch receives from its channel. -/
def runCommand (cancelAt : Option Nat) (timeout : Nat) (exitAt : Nat)
    (procErr : Bool) : RunTrace :=
  match effectiveDone cancelAt timeout with
  | none => ⟨.completed procErr, none, 1, true⟩
  | some d =>
    if exitAt ≤ d then ⟨.completed procErr, none, 1, true⟩
    else if exitAt ≤ d + graceWindow then ⟨.ctxDone, none, 1, true⟩
    else ⟨.ctxDone, some (d + graceWindow), 1, false⟩

end Supervisor

example : Supervisor.runCommand none 0 7 true =
    ⟨.completed true, none, 1, true⟩ := by decide
example : Supervisor.runCommand (some 3) 0 10 false =
    ⟨.ctxDone, none, 1, true⟩ := by decide
example : Supervisor.runCommand (some 3) 5 30 false =
    ⟨.ctxDone, some 18, 1, false⟩ := by decide
example : Supervisor.runCommand none 5 30 false =
    ⟨.ctxDone, some 20, 1, false⟩ := by decide

namespace Native

/-!
Model of the native builder's `Build` (native.go, the k6foundry revision
whose `newGoEnv` performs the toolchain probes) as the sequence of
externally observable effects it performs, driven by the success or
failure of each primitive step. Filesystem and subprocess outcomes are
inputs; the model records which effects were attempted, in order, and
which wrapped error (if any) the call returns.
-/

/-- Observable effects of one `Build` call, in program order.
`addDependency 0` is the base k6 module, `addDependency (i+1)` the i-th
extension; `writeSink` is the `io.Copy` onto the caller's output
writer. -/
inductive BuildEffect where
  | createWorkspace
  | probeGo
  | probeGit
  | mkModCache
  | mkGoCache
  | goModInit
  | writeMainFile
  | writeImportFile (idx : Nat)
  | addDependency (idx : Nat)
  | goCompile
  | openBinary
  | writeSink
  | removeWorkspace
deriving DecidableEq, Repr

/-- The error classes `Build` can return, one per failing step. -/
inductive BuildError where
  | workDirErr
  | noGoToolchain
  | noGit
  | cacheErr
  | modInitErr
  | createMainErr
  | importErr (idx : Nat)
  | addModErr (idx : Nat)
  | compileErr
  | openErr
  | copyErr
deriving DecidableEq, Repr

/-- Outcomes of the primitive steps of one `Build` call, plus the
options that alter its control flow. `exts` holds, per extension, the
outcome of writing its blank-import file and of adding it to the
manifest. `mkCacheOk` abstracts the two ephemeral-cache `MkdirTemp`
calls into one outcome. -/
structure BuildInputs where
  skipCleanup : Bool
  ephemeralCache : Bool
  mkWorkDirOk : Bool
  hasGo : Bool
  hasGit : Bool
  mkCacheOk : Bool
  modInitOk : Bool
  createMainOk : Bool
  addK6Ok : Bool
  exts : List (Bool × Bool)
  compileOk : Bool
  openOk : Bool
  copyOk : Bool
deriving DecidableEq, Repr

/-- The per-extension loop of `Build`: write the blank-import file, then
add the manifest requirement, aborting at the first failure. -/
def extLoop : Nat → List (Bool × Bool) → List BuildEffect × Option BuildError
  | _, [] => ([], none)
  | i, ok :: rest =>
    if ¬ ok.1 then ([.writeImportFile i], some (.importErr i))
    else if ¬ ok.2 then ([.writeImportFile i, .addDependency i], some (.addModErr i))
    else
      let r := extLoop (i + 1) rest
      (.writeImportFile i :: .addDependency i :: r.1, r.2)

/-- The effects of `newGoEnv` when it succeeds: the toolchain probes,
then the two ephemeral-cache directories when requested. -/
def envFx (inp : BuildInputs) : List BuildEffect :=
  [.probeGo, .probeGit] ++
    (if inp.ephemeralCache then [.mkModCache, .mkGoCache] else [])

/-- The effects of every step up to (but excluding) compilation, when
all of them succeed. -/
def preFx (inp : BuildInputs) : List BuildEffect :=
  envFx inp ++ [.goModInit, .writeMainFile, .addDependency 0] ++
    (extLoop 1 inp.exts).1

/-- The tail of `Build` after the extension loop: abort on a loop
error, otherwise compile, open the artifact and stream it to the sink,
stopping at the first failing step. -/
def afterExts (inp : BuildInputs) (ext2 : Option BuildError) :
    List BuildEffect × Option BuildError :=
  match ext2 with
  | some e => (preFx inp, some e)
  | none =>
    if ¬ inp.compileOk then (preFx inp ++ [.goCompile], some .compileErr)
    else if ¬ inp.openOk then
      (preFx inp ++ [.goCompile, .openBinary], some .openErr)
    else if ¬ inp.copyOk then
      (preFx inp ++ [.goCompile, .openBinary, .writeSink], some .copyErr)
    else (preFx inp ++ [.goCompile, .openBinary, .writeSink], none)

/-- The body of `Build` after the workspace exists (and after its
deferred removal is registered): `newGoEnv` (toolchain probes, then
ephemeral caches, then environment composition), `modInit`,
`createMain`, adding the base module, the extension loop, `compile`, and
only then opening the artifact and streaming it to the sink. -/
def buildBody (inp : BuildInputs) : List BuildEffect × Option BuildError :=
  if ¬ inp.hasGo then ([.probeGo], some .noGoToolchain)
  else if ¬ inp.hasGit then ([.probeGo, .probeGit], some .noGit)
  else if inp.ephemeralCache ∧ ¬ inp.mkCacheOk then
    ([.probeGo, .probeGit, .mkModCache], some .cacheErr)
  else if ¬ inp.modInitOk then (envFx inp ++ [.goModInit], some .modInitErr)
  else if ¬ inp.createMainOk then
    (envFx inp ++ [.goModInit, .writeMainFile], some .createMainErr)
  else if ¬ inp.addK6Ok then
    (envFx inp ++ [.goModInit, .writeMainFile, .addDependency 0],
      some (.addModErr 0))
  else afterExts inp (extLoop 1 inp.exts).2

/-- `Build`: create the workspace first; from then on the deferred
cleanup removes it on every path unless `SkipCleanup` was set. -/
def Build (inp : BuildInputs) : List BuildEffect × Option BuildError :=
  if ¬ inp.mkWorkDirOk then ([], some .workDirErr)
  else
    let body := buildBody inp
    (.createWorkspace :: body.1 ++
      (if inp.skipCleanup then [] else [.removeWorkspace]), body.2)

end Native

example :
    Native.Build ⟨false, false, true, true, true, true, true, true, true,
      [(true, true)], true, true, true⟩ =
    ([.createWorkspace, .probeGo, .probeGit, .goModInit, .writeMainFile,
      .addDependency 0, .writeImportFile 1, .addDependency 1, .goCompile,
      .openBinary, .writeSink, .removeWorkspace], none) := by decide
example :
    Native.Build ⟨false, false, true, false, true, true, true, true, true,
      [], true, true, true⟩ =
    ([.createWorkspace, .probeGo, .removeWorkspace],
      some .noGoToolchain) := by decide
example :
    Native.Build ⟨false, false, true, true, true, true, true, true, true,
      [(true, false)], true, true, true⟩ =
    ([.createWorkspace, .probeGo, .probeGit, .goModInit, .writeMainFile,
      .addDependency 0, .writeImportFile 1, .addDependency 1,
      .removeWorkspace], some (.addModErr 1)) := by decide

namespace Env

/-!
Embedding of the environment-composition block of `newGoEnv` (goenv.go):
an optional copy of the ambient `go env` map, then `PATH` from the
ambient process environment, then the explicitly computed platform and
option variables, later assignments overriding earlier ones. The Go map
is modelled as a partial lookup function.
-/

/-- A Go `map[string]string`. -/
abbrev EnvMap := GoStr → Option GoStr

/-- Map assignment `m[k] = v`. -/
def updMap (m : EnvMap) (k v : GoStr) : EnvMap :=
  fun q => if q = k then some v else m q

/-- Conditional map assignment (the `if opts.X != ""` guards). -/
def condUpd (cond : Bool) (k v : GoStr) (m : EnvMap) : EnvMap :=
  if cond then updMap m k v else m

/-- `GoOpts` fields that feed the environment composition. -/
structure GoOpts where
  CopyGoEnv : Bool
  Cgo : Bool
  GoNoSumDB : GoStr
  GoCache : GoStr
  GoModCache : GoStr
  GoProxy : GoStr
  GoNoProxy : GoStr
  GoPrivate : GoStr

/-- A target platform. -/
structure Platform where
  OS : GoStr
  Arch : GoStr

/-- The environment map `newGoEnv` hands to every external command,
given the ambient `PATH` value and the result of `go env -json`
(consulted only when `CopyGoEnv` is set). Assignment order follows
goenv.go lines 100–131. -/
def newGoEnvMap (opts : GoOpts) (platform : Platform) (ambientPATH : GoStr)
    (goEnv : EnvMap) : EnvMap :=
  condUpd (¬ opts.GoNoSumDB = []) "GONOSUMDB".toList opts.GoNoSumDB
    (condUpd (¬ opts.GoPrivate = []) "GOPRIVATE".toList opts.GoPrivate
      (condUpd (¬ opts.GoNoProxy = []) "GONOPROXY".toList opts.GoNoProxy
        (condUpd (¬ opts.GoProxy = []) "GOPROXY".toList opts.GoProxy
          (condUpd (¬ opts.GoModCache = []) "GOMODCACHE".toList opts.GoModCache
            (condUpd (¬ opts.GoCache = []) "GOCACHE".toList opts.GoCache
              (updMap
                (updMap
                  (updMap
                    (updMap (if opts.CopyGoEnv then goEnv else fun _ => none)
                      "PATH".toList ambientPATH)
                    "GOOS".toList platform.OS)
                  "GOARCH".toList platform.Arch)
                "CGO_ENABLED".toList
                (if opts.Cgo then "true".toList else "false".toList)))))))

end Env

/-! ## Helper lemmas: scanning primitives -/

theorem takeWhile_append_all {α : Type} (P : α → Bool) (d rest : List α)
    (hd : ∀ c ∈ d, P c = true) (hr : ∀ c, rest.head? = some c → P c = false) :
    (d ++ rest).takeWhile P = d := by
  induction d with
  | nil =>
    simp only [List.nil_append]
    cases rest with
    | nil => rfl
    | cons c cs => simp [List.takeWhile_cons, hr c rfl]
  | cons a d ih =>
    simp only [List.cons_append, List.takeWhile_cons, hd a (by simp)]
    simp [ih (fun c hc => hd c (by simp [hc]))]

theorem dropWhile_append_all {α : Type} (P : α → Bool) (d rest : List α)
    (hd : ∀ c ∈ d, P c = true) (hr : ∀ c, rest.head? = some c → P c = false) :
    (d ++ rest).dropWhile P = rest := by
  induction d with
  | nil =>
    simp only [List.nil_append]
    cases rest with
    | nil => rfl
    | cons c cs => simp [List.dropWhile_cons, hr c rfl]
  | cons a d ih =>
    simp only [List.cons_append, List.dropWhile_cons, hd a (by simp)]
    exact ih (fun c hc => hd c (by simp [hc]))

theorem takeWhile_all {α : Type} (P : α → Bool) (l : List α)
    (h : ∀ c ∈ l, P c = true) : l.takeWhile P = l := by
  have := takeWhile_append_all P l [] h (by intro c hc; cases hc)
  simpa using this

theorem dropWhile_all {α : Type} (P : α → Bool) (l : List α)
    (h : ∀ c ∈ l, P c = true) : l.dropWhile P = [] := by
  have := dropWhile_append_all P l [] h (by intro c hc; cases hc)
  simpa using this

/-! ## Helper lemmas: `strings.Cut` -/

theorem cutAt_append (p rest : GoStr) (h : '@' ∉ p) :
    K6.cutAt (p ++ '@' :: rest) = (p, rest, true) := by
  induction p with
  | nil => simp [K6.cutAt]
  | cons c p ih =>
    have hc : ¬ c = '@' := fun hh => h (by simp [hh])
    have ih2 := ih (fun hm => h (by simp [hm]))
    simp only [List.cons_append, K6.cutAt, if_neg hc, List.append_eq, ih2]

theorem cutAt_no_sep (p : GoStr) (h : '@' ∉ p) : K6.cutAt p = (p, [], false) := by
  induction p with
  | nil => rfl
  | cons c p ih =>
    have hc : ¬ c = '@' := fun hh => h (by simp [hh])
    have ih2 := ih (fun hm => h (by simp [hm]))
    simp only [K6.cutAt, if_neg hc, List.append_eq, ih2]

theorem cutEq_append (p rest : GoStr) (h : '=' ∉ p) :
    K6.cutEq (p ++ '=' :: rest) = (p, rest, true) := by
  induction p with
  | nil => simp [K6.cutEq]
  | cons c p ih =>
    have hc : ¬ c = '=' := fun hh => h (by simp [hh])
    have ih2 := ih (fun hm => h (by simp [hm]))
    simp only [List.cons_append, K6.cutEq, if_neg hc, List.append_eq, ih2]

/-! ## Helper lemmas: `splitSlash`, `joinSlash`, `clean` -/

theorem splitSlash_nil : Filepath.splitSlash [] = [[]] := rfl

theorem splitSlash_cons_slash (rest : GoStr) :
    Filepath.splitSlash ('/' :: rest) = [] :: Filepath.splitSlash rest := by
  simp [Filepath.splitSlash]

theorem splitSlash_ne_nil (p : GoStr) : Filepath.splitSlash p ≠ [] := by
  cases p with
  | nil => simp [Filepath.splitSlash]
  | cons c rest =>
    by_cases hc : c = '/' <;> simp [Filepath.splitSlash, hc]

theorem splitSlash_cons_ne (c : Char) (rest s : GoStr) (ss : List GoStr)
    (hc : ¬ c = '/') (h : Filepath.splitSlash rest = s :: ss) :
    Filepath.splitSlash (c :: rest) = (c :: s) :: ss := by
  simp [Filepath.splitSlash, hc, h]

theorem splitSlash_append (p m : GoStr) :
    Filepath.splitSlash (p ++ '/' :: m) =
      Filepath.splitSlash p ++ Filepath.splitSlash m := by
  induction p with
  | nil => simp [splitSlash_nil, splitSlash_cons_slash]
  | cons c p ih =>
    by_cases hc : c = '/'
    · subst hc
      rw [List.cons_append, splitSlash_cons_slash, splitSlash_cons_slash, ih,
        List.cons_append]
    · cases h : Filepath.splitSlash p with
      | nil => exact absurd h (splitSlash_ne_nil p)
      | cons s ss =>
        have h2 : Filepath.splitSlash (p ++ '/' :: m) =
            s :: (ss ++ Filepath.splitSlash m) := by
          rw [ih, h, List.cons_append]
        rw [List.cons_append, splitSlash_cons_ne c _ _ _ hc h2,
          splitSlash_cons_ne c _ _ _ hc h, List.cons_append]

theorem splitSlash_no_slash (m : GoStr) (h : '/' ∉ m) :
    Filepath.splitSlash m = [m] := by
  induction m with
  | nil => rfl
  | cons c m ih =>
    have hc : ¬ c = '/' := fun hh => h (by simp [hh])
    exact splitSlash_cons_ne c m m [] hc (ih (fun hm => h (by simp [hm])))

theorem joinSlash_splitSlash (p : GoStr) :
    Filepath.joinSlash (Filepath.splitSlash p) = p := by
  induction p with
  | nil => rfl
  | cons c p ih =>
    cases h : Filepath.splitSlash p with
    | nil => exact absurd h (splitSlash_ne_nil p)
    | cons s ss =>
      rw [h] at ih
      by_cases hc : c = '/'
      · subst hc
        rw [splitSlash_cons_slash, h]
        simpa [Filepath.joinSlash] using ih
      · rw [splitSlash_cons_ne c _ _ _ hc h]
        cases ss with
        | nil => simpa [Filepath.joinSlash] using ih
        | cons t ts => simpa [Filepath.joinSlash] using ih

theorem mem_splitSlash (p : GoStr) (c : Char) (h : c ∈ p) :
    c = '/' ∨ ∃ e ∈ Filepath.splitSlash p, c ∈ e := by
  induction p with
  | nil => cases h
  | cons a p ih =>
    by_cases ha : a = '/'
    · subst ha
      rcases List.mem_cons.mp h with rfl | h
      · exact Or.inl rfl
      · rcases ih h with h1 | ⟨e, he, hce⟩
        · exact Or.inl h1
        · refine Or.inr ⟨e, ?_, hce⟩
          rw [splitSlash_cons_slash]
          exact List.mem_cons_of_mem _ he
    · cases hs : Filepath.splitSlash p with
      | nil => exact absurd hs (splitSlash_ne_nil p)
      | cons s ss =>
        rw [splitSlash_cons_ne a _ _ _ ha hs]
        rcases List.mem_cons.mp h with rfl | h
        · exact Or.inr ⟨c :: s, by simp, by simp⟩
        · rcases ih h with h1 | ⟨e, he, hce⟩
          · exact Or.inl h1
          · rw [hs] at he
            rcases List.mem_cons.mp he with rfl | he
            · exact Or.inr ⟨a :: e, by simp, List.mem_cons_of_mem _ hce⟩
            · exact Or.inr ⟨e, List.mem_cons_of_mem _ he, hce⟩

/-! ## Helper lemmas: semantic versions -/

theorem mem_takeWhile_pred {α : Type} (P : α → Bool) (l : List α) (c : α)
    (h : c ∈ l.takeWhile P) : P c = true := by
  induction l with
  | nil => cases h
  | cons a l ih =>
    by_cases ha : P a = true
    · rw [List.takeWhile_cons, if_pos ha] at h
      rcases List.mem_cons.mp h with rfl | h
      · exact ha
      · exact ih h
    · rw [List.takeWhile_cons, if_neg ha] at h
      cases h

theorem head_dropWhile_false {α : Type} (P : α → Bool) (l : List α) (c : α)
    (h : (l.dropWhile P).head? = some c) : P c = false := by
  induction l with
  | nil => cases h
  | cons a l ih =>
    by_cases ha : P a = true
    · rw [List.dropWhile_cons, if_pos ha] at h
      exact ih h
    · rw [List.dropWhile_cons, if_neg ha] at h
      cases h
      simpa using ha

/-- The digit-run invariant established by `semver.parseInt`. -/
def DigitsOK (d : GoStr) : Prop :=
  d ≠ [] ∧ (∀ c ∈ d, isDigit c = true) ∧ (d.head? = some '0' → d.length = 1)

theorem parseInt_eq (v t rest : GoStr) (h : Semver.parseInt v = some (t, rest)) :
    v = t ++ rest ∧ DigitsOK t ∧
      (∀ c, rest.head? = some c → isDigit c = false) := by
  unfold Semver.parseInt at h
  cases v with
  | nil => cases h
  | cons c v' =>
    simp only at h
    by_cases hc : isDigit c = true
    · rw [if_neg (by simp [hc])] at h
      by_cases hz : c = '0' ∧ ((c :: v').takeWhile isDigit).length ≠ 1
      · rw [if_pos hz] at h; cases h
      · rw [if_neg hz] at h
        obtain ⟨ht, hrest⟩ := Prod.mk.injEq .. ▸ Option.some.injEq .. ▸ h
        subst ht
        subst hrest
        refine ⟨(List.takeWhile_append_dropWhile ..).symm, ⟨?_, ?_, ?_⟩, ?_⟩
        · simp [List.takeWhile_cons, hc]
        · intro d hd; exact mem_takeWhile_pred _ _ _ hd
        · intro hh
          by_contra hlen
          refine hz ⟨?_, hlen⟩
          rw [List.takeWhile_cons, if_pos hc] at hh
          simpa using hh
        · intro d hd; exact head_dropWhile_false _ _ _ hd
    · rw [if_pos (by simp [hc])] at h; cases h

theorem parseInt_append (t rest : GoStr) (h : DigitsOK t)
    (hr : ∀ c, rest.head? = some c → isDigit c = false) :
    Semver.parseInt (t ++ rest) = some (t, rest) := by
  obtain ⟨hne, hall, hzero⟩ := h
  cases t with
  | nil => exact absurd rfl hne
  | cons c t' =>
    have hc : isDigit c = true := hall c (by simp)
    have htake : ((c :: t') ++ rest).takeWhile isDigit = c :: t' :=
      takeWhile_append_all _ _ _ hall hr
    have hdrop : ((c :: t') ++ rest).dropWhile isDigit = rest :=
      dropWhile_append_all _ _ _ hall hr
    unfold Semver.parseInt
    simp only [List.cons_append]
    rw [if_neg (by simp [hc])]
    rw [List.cons_append] at htake hdrop
    rw [htake, hdrop]
    rw [if_neg]
    rintro ⟨hz, hlen⟩
    exact hlen (by simpa [hz] using hzero (by simp [hz]))

/-- The shape invariant established by `semver.parsePrerelease`. -/
def preOK (pre : GoStr) : Bool :=
  match pre with
  | [] => true
  | c :: body => c = '-' ∧ Semver.preBodyOK body

theorem preBodyOK_chars (body : GoStr) (h : Semver.preBodyOK body = true) :
    ∀ c ∈ body, Semver.isIdentChar c = true ∨ c = '.' := by
  intro c hc
  unfold Semver.preBodyOK at h
  rw [decide_eq_true_eq] at h
  have := List.all_eq_true.mp h.1 c hc
  simpa using this

theorem preBodyOK_no_plus (body : GoStr) (h : Semver.preBodyOK body = true) :
    ∀ c ∈ body, (decide ¬(c = '+')) = true := by
  intro c hc
  rw [decide_eq_true_eq]
  intro hplus
  subst hplus
  rcases preBodyOK_chars body h _ hc with h1 | h1
  · exact absurd h1 (by decide)
  · exact absurd h1 (by decide)

theorem parsePrerelease_eq (v pre rest : GoStr)
    (h : Semver.parsePrerelease v = some (pre, rest)) :
    v = pre ++ rest ∧ preOK pre = true ∧
      (rest = [] ∨ rest.head? = some '+') := by
  unfold Semver.parsePrerelease at h
  cases v with
  | nil => cases h
  | cons c tail =>
    simp only at h
    by_cases hc : c = '-'
    · rw [if_neg (not_not_intro hc)] at h
      subst hc
      by_cases hb : Semver.preBodyOK (tail.takeWhile (fun x => x ≠ '+')) = true
      · rw [if_pos hb] at h
        simp only [Option.some.injEq, Prod.mk.injEq] at h
        obtain ⟨hpre, hrest⟩ := h
        subst hpre
        subst hrest
        refine ⟨by simp [List.takeWhile_append_dropWhile],
          by simpa [preOK] using hb, ?_⟩
        cases hr : (tail.dropWhile (fun x => x ≠ '+')).head? with
        | none => exact Or.inl (List.head?_eq_none_iff.mp hr)
        | some d =>
          right
          have := head_dropWhile_false _ _ _ hr
          simp only [decide_eq_false_iff_not, not_not] at this
          rw [this]
      · rw [if_neg hb] at h; cases h
    · rw [if_pos hc] at h; cases h

theorem parsePrerelease_self (body : GoStr) (h : Semver.preBodyOK body = true) :
    Semver.parsePrerelease ('-' :: body) = some ('-' :: body, []) := by
  have htake : body.takeWhile (fun x => x ≠ '+') = body :=
    takeWhile_all _ _ (preBodyOK_no_plus body h)
  have hdrop : body.dropWhile (fun x => x ≠ '+') = [] :=
    dropWhile_all _ _ (preBodyOK_no_plus body h)
  unfold Semver.parsePrerelease
  simp only [htake, hdrop]
  simp [h]

theorem parseBuild_eq (v bld rest : GoStr)
    (h : Semver.parseBuild v = some (bld, rest)) :
    v = bld ∧ rest = [] ∧
      ∃ body, bld = '+' :: body ∧ Semver.buildBodyOK body = true := by
  unfold Semver.parseBuild at h
  cases v with
  | nil => cases h
  | cons c tail =>
    simp only at h
    by_cases hc : c = '+'
    · rw [if_neg (not_not_intro hc)] at h
      subst hc
      by_cases hb : Semver.buildBodyOK tail = true
      · rw [if_pos hb] at h
        simp only [Option.some.injEq, Prod.mk.injEq] at h
        obtain ⟨hb2, hr⟩ := h
        subst hb2
        subst hr
        exact ⟨rfl, rfl, tail, rfl, hb⟩
      · rw [if_neg hb] at h; cases h
    · rw [if_pos hc] at h; cases h

theorem parsePreStep_eq (v pre rest : GoStr)
    (h : Semver.parsePreStep v = some (pre, rest)) :
    v = pre ++ rest ∧ preOK pre = true := by
  unfold Semver.parsePreStep at h
  cases v with
  | nil =>
    simp only [Option.some.injEq, Prod.mk.injEq] at h
    obtain ⟨h1, h2⟩ := h
    subst h1
    subst h2
    exact ⟨rfl, rfl⟩
  | cons c tail =>
    simp only at h
    by_cases hc : c = '-'
    · rw [if_pos hc] at h
      obtain ⟨hv, hok, _⟩ := parsePrerelease_eq _ _ _ h
      exact ⟨hv, hok⟩
    · rw [if_neg hc] at h
      simp only [Option.some.injEq, Prod.mk.injEq] at h
      obtain ⟨h1, h2⟩ := h
      subst h1
      subst h2
      exact ⟨rfl, rfl⟩

theorem parseBuildStep_eq (v bld rest : GoStr)
    (h : Semver.parseBuildStep v = some (bld, rest)) :
    v = bld ++ rest := by
  unfold Semver.parseBuildStep at h
  cases v with
  | nil =>
    simp only [Option.some.injEq, Prod.mk.injEq] at h
    obtain ⟨h1, h2⟩ := h
    subst h1
    subst h2
    rfl
  | cons c tail =>
    simp only at h
    by_cases hc : c = '+'
    · rw [if_pos hc] at h
      obtain ⟨hv, hrest, _⟩ := parseBuild_eq _ _ _ h
      subst hrest
      simpa using hv
    · rw [if_neg hc] at h
      simp only [Option.some.injEq, Prod.mk.injEq] at h
      obtain ⟨h1, h2⟩ := h
      subst h1
      subst h2
      rfl

/-- The canonical rendering of a parsed version: the string `Canonical`
produces (`vMAJOR.MINOR.PATCH` plus prerelease, build stripped). -/
def render (p : Semver.Parsed) : GoStr :=
  'v' :: (p.major ++ '.' :: (p.minor ++ '.' :: (p.patch ++ p.prerelease)))

/-- Wellformedness of the fields of a successfully parsed version. -/
def WF (p : Semver.Parsed) : Prop :=
  DigitsOK p.major ∧ DigitsOK p.minor ∧ DigitsOK p.patch ∧
    preOK p.prerelease = true

theorem digitsOK_zero : DigitsOK ['0'] := by
  refine ⟨by simp, ?_, fun _ => rfl⟩
  intro c hc
  simp only [List.mem_singleton] at hc
  subst hc
  decide

theorem parse_cases (v : GoStr) (p : Semver.Parsed)
    (h : Semver.parse v = some p) :
    WF p ∧
      ((p.minor = ['0'] ∧ p.patch = ['0'] ∧
          p.short = '.' :: '0' :: '.' :: '0' :: [] ∧ p.prerelease = [] ∧
          p.build = [] ∧ v = 'v' :: p.major) ∨
       (p.patch = ['0'] ∧ p.short = '.' :: '0' :: [] ∧ p.prerelease = [] ∧
          p.build = [] ∧ v = 'v' :: (p.major ++ '.' :: p.minor)) ∨
       (p.short = [] ∧
          v = 'v' :: (p.major ++ '.' ::
            (p.minor ++ '.' :: (p.patch ++ p.prerelease ++ p.build))))) := by
  unfold Semver.parse at h
  cases v with
  | nil => cases h
  | cons c0 tail =>
    simp only at h
    by_cases hc0 : c0 = 'v'
    swap
    · rw [if_pos hc0] at h; cases h
    rw [if_neg (not_not_intro hc0)] at h
    subst hc0
    cases hmaj : Semver.parseInt tail with
    | none => rw [hmaj] at h; cases h
    | some mv =>
      obtain ⟨major, v1⟩ := mv
      rw [hmaj] at h
      obtain ⟨htail, hdmaj, hrest1⟩ := parseInt_eq _ _ _ hmaj
      simp only at h
      cases v1 with
      | nil =>
        simp only [Option.some.injEq] at h
        subst h
        refine ⟨⟨hdmaj, digitsOK_zero, digitsOK_zero, rfl⟩,
          Or.inl ⟨rfl, rfl, rfl, rfl, rfl, ?_⟩⟩
        rw [htail]
        simp
      | cons c1 v2 =>
        simp only at h
        by_cases hc1 : c1 = '.'
        swap
        · rw [if_pos hc1] at h; cases h
        rw [if_neg (not_not_intro hc1)] at h
        subst hc1
        cases hmin : Semver.parseInt v2 with
        | none => rw [hmin] at h; cases h
        | some mv2 =>
          obtain ⟨minor, v3⟩ := mv2
          rw [hmin] at h
          obtain ⟨hv2, hdmin, hrest2⟩ := parseInt_eq _ _ _ hmin
          simp only at h
          cases v3 with
          | nil =>
            simp only [Option.some.injEq] at h
            subst h
            refine ⟨⟨hdmaj, hdmin, digitsOK_zero, rfl⟩,
              Or.inr (Or.inl ⟨rfl, rfl, rfl, rfl, ?_⟩)⟩
            rw [htail, hv2]
            simp
          | cons c2 v4 =>
            simp only at h
            by_cases hc2 : c2 = '.'
            swap
            · rw [if_pos hc2] at h; cases h
            rw [if_neg (not_not_intro hc2)] at h
            subst hc2
            cases hpat : Semver.parseInt v4 with
            | none => rw [hpat] at h; cases h
            | some mv3 =>
              obtain ⟨patch, v5⟩ := mv3
              rw [hpat] at h
              obtain ⟨hv4, hdpat, hrest3⟩ := parseInt_eq _ _ _ hpat
              simp only at h
              cases hpre : Semver.parsePreStep v5 with
              | none => rw [hpre] at h; cases h
              | some pv =>
                obtain ⟨pre, v6⟩ := pv
                rw [hpre] at h
                obtain ⟨hv5, hpok⟩ := parsePreStep_eq _ _ _ hpre
                simp only at h
                cases hbld : Semver.parseBuildStep v6 with
                | none => rw [hbld] at h; cases h
                | some bv =>
                  obtain ⟨bld, v7⟩ := bv
                  rw [hbld] at h
                  have hv6 := parseBuildStep_eq _ _ _ hbld
                  simp only at h
                  by_cases hv7 : v7 = []
                  swap
                  · rw [if_neg hv7] at h; cases h
                  rw [if_pos hv7] at h
                  subst hv7
                  simp only [Option.some.injEq] at h
                  subst h
                  refine ⟨⟨hdmaj, hdmin, hdpat, hpok⟩,
                    Or.inr (Or.inr ⟨rfl, ?_⟩)⟩
                  rw [htail, hv2, hv4, hv5, hv6]
                  simp [List.append_assoc]

theorem canonical_eq_render (v : GoStr) (p : Semver.Parsed)
    (h : Semver.parse v = some p) :
    Semver.Canonical v = render p := by
  obtain ⟨hwf, hc⟩ := parse_cases v p h
  unfold Semver.Canonical
  rw [h]
  simp only
  rcases hc with ⟨hm, hp, hs, hpre, hb, hv⟩ | ⟨hp, hs, hpre, hb, hv⟩ | ⟨hs, hv⟩
  · rw [if_neg (by simp [hb]), if_pos (by simp [hs])]
    rw [hv, hs]
    simp [render, hm, hp, hpre]
  · rw [if_neg (by simp [hb]), if_pos (by simp [hs])]
    rw [hv, hs]
    simp [render, hp, hpre]
  · by_cases hbe : p.build = []
    · rw [if_neg (by simp [hbe]), if_neg (by simp [hs])]
      rw [hv]
      simp [render, hbe]
    · rw [if_pos (by simp [hbe])]
      have hv2 : v = render p ++ p.build := by
        rw [hv]
        simp [render, List.append_assoc]
      rw [hv2, List.length_append, Nat.add_sub_cancel, List.take_left]

theorem parse_render (p : Semver.Parsed) (hwf : WF p) :
    Semver.parse (render p) =
      some ⟨p.major, p.minor, p.patch, [], p.prerelease, []⟩ := by
  obtain ⟨hmaj, hmin, hpat, hpre⟩ := hwf
  have hdot : ∀ (X : GoStr) (c : Char),
      (('.' :: X).head? = some c) → isDigit c = false := by
    intro X c hc
    simp only [List.head?_cons, Option.some.injEq] at hc
    subst hc
    decide
  have hpr : ∀ c, (p.prerelease.head? = some c) → isDigit c = false := by
    intro c hc
    cases hp0 : p.prerelease with
    | nil => rw [hp0] at hc; cases hc
    | cons d body =>
      rw [hp0] at hc
      simp only [List.head?_cons, Option.some.injEq] at hc
      subst hc
      rw [hp0] at hpre
      unfold preOK at hpre
      simp only [decide_eq_true_eq] at hpre
      rw [hpre.1]
      decide
  have h1 := parseInt_append p.major
    ('.' :: (p.minor ++ '.' :: (p.patch ++ p.prerelease))) hmaj (hdot _)
  have h2 := parseInt_append p.minor
    ('.' :: (p.patch ++ p.prerelease)) hmin (hdot _)
  have h3 := parseInt_append p.patch p.prerelease hpat hpr
  have h4 : Semver.parsePreStep p.prerelease = some (p.prerelease, []) := by
    cases hp0 : p.prerelease with
    | nil => rfl
    | cons d body =>
      rw [hp0] at hpre
      unfold preOK at hpre
      simp only [decide_eq_true_eq] at hpre
      obtain ⟨hd, hb⟩ := hpre
      subst hd
      unfold Semver.parsePreStep
      simp only [if_pos rfl]
      exact parsePrerelease_self body hb
  unfold render Semver.parse
  simp [h1, h2, h3, h4]
  rfl

theorem canonical_parse (v : GoStr) (p : Semver.Parsed)
    (h : Semver.parse v = some p) :
    Semver.parse (Semver.Canonical v) =
      some ⟨p.major, p.minor, p.patch, [], p.prerelease, []⟩ := by
  rw [canonical_eq_render v p h]
  exact parse_render p (parse_cases v p h).1

theorem canonical_isValid (v : GoStr) (h : Semver.IsValid v = true) :
    Semver.IsValid (Semver.Canonical v) = true := by
  unfold Semver.IsValid at h ⊢
  obtain ⟨p, hp⟩ := Option.isSome_iff_exists.mp h
  rw [canonical_parse v p hp]
  rfl

theorem canonical_idem (v : GoStr) (h : Semver.IsValid v = true) :
    Semver.Canonical (Semver.Canonical v) = Semver.Canonical v := by
  unfold Semver.IsValid at h
  obtain ⟨p, hp⟩ := Option.isSome_iff_exists.mp h
  have h2 := canonical_parse v p hp
  rw [canonical_eq_render _ _ h2, canonical_eq_render v p hp]
  rfl

theorem canonical_head (v : GoStr) (p : Semver.Parsed)
    (h : Semver.parse v = some p) :
    (Semver.Canonical v).head? = some 'v' := by
  rw [canonical_eq_render v p h]
  rfl

theorem major_eq (v : GoStr) (p : Semver.Parsed)
    (h : Semver.parse v = some p) :
    Semver.Major v = 'v' :: p.major := by
  obtain ⟨rest, hv⟩ : ∃ rest, v = 'v' :: (p.major ++ rest) := by
    rcases (parse_cases v p h).2 with
      ⟨_, _, _, _, _, hv⟩ | ⟨_, _, _, _, hv⟩ | ⟨_, hv⟩
    · exact ⟨[], by simpa using hv⟩
    · exact ⟨'.' :: p.minor, hv⟩
    · exact ⟨'.' :: (p.minor ++ '.' :: (p.patch ++ p.prerelease ++ p.build)), hv⟩
  unfold Semver.Major
  rw [h, hv]
  simp only
  rw [show 1 + p.major.length = p.major.length + 1 from Nat.add_comm 1 _]
  rw [List.take_succ_cons, List.take_left]

def Plain (e : GoStr) : Prop := e ≠ [] ∧ e ≠ ['.'] ∧ e ≠ ['.', '.']

theorem cleanAux_cons (rooted : Bool) (out : List GoStr) (c : GoStr)
    (cs : List GoStr) :
    Filepath.cleanAux rooted out (c :: cs) =
      if c = [] ∨ c = ['.'] then Filepath.cleanAux rooted out cs
      else if c = ['.', '.'] then
        (match out with
         | [] =>
           if rooted then Filepath.cleanAux rooted [] cs
           else Filepath.cleanAux rooted [c] cs
         | top :: rest =>
           if top = ['.', '.'] then Filepath.cleanAux rooted (c :: out) cs
           else Filepath.cleanAux rooted rest cs)
      else Filepath.cleanAux rooted (c :: out) cs := rfl

theorem cleanAux_plain (rooted : Bool) (cs : List GoStr)
    (h : ∀ e ∈ cs, Plain e) :
    ∀ out, Filepath.cleanAux rooted out cs = out.reverse ++ cs := by
  induction cs with
  | nil => intro out; simp [Filepath.cleanAux]
  | cons c cs ih =>
    intro out
    obtain ⟨h1, h2, h3⟩ := h c (by simp)
    have hcond : ¬ (c = [] ∨ c = ['.']) := by
      rintro (hh | hh)
      · exact h1 hh
      · exact h2 hh
    rw [cleanAux_cons, if_neg hcond, if_neg h3,
      ih (fun e he => h e (by simp [he])) (c :: out)]
    simp

/-! ## Helper lemmas: module path validity -/

theorem checkElem_false_nil : GoModule.checkElem [] = false := by decide

theorem CheckPath_checkPath (p : GoStr) (h : GoModule.CheckPath p = true) :
    GoModule.checkPath p = true := by
  unfold GoModule.CheckPath at h
  rw [decide_eq_true_eq] at h
  exact h.1

theorem checkPath_unpack (p : GoStr) (h : GoModule.checkPath p = true) :
    ¬ p.isEmpty = true ∧
      (∀ e ∈ Filepath.splitSlash p, GoModule.checkElem e = true) := by
  unfold GoModule.checkPath at h
  rw [decide_eq_true_eq] at h
  exact ⟨h.1, fun e he => List.all_eq_true.mp h.2.2.2.2 e he⟩

theorem checkElem_plain (e : GoStr) (h : GoModule.checkElem e = true) :
    Plain e := by
  unfold GoModule.checkElem at h
  rw [decide_eq_true_eq] at h
  obtain ⟨h1, h2, _⟩ := h
  refine ⟨?_, ?_, ?_⟩
  · intro he; subst he; exact h1 rfl
  · intro he; subst he; exact h2 (by decide)
  · intro he; subst he; exact h2 (by decide)

theorem checkElem_chars (e : GoStr) (c : Char)
    (h : GoModule.checkElem e = true) (hc : c ∈ e) :
    GoModule.modPathOK c = true := by
  unfold GoModule.checkElem at h
  rw [decide_eq_true_eq] at h
  exact List.all_eq_true.mp h.2.2.2.2.1 c hc

theorem CheckPath_facts (p : GoStr) (h : GoModule.CheckPath p = true) :
    p ≠ [] ∧ ¬ p.head? = some '/' ∧
      (∀ c ∈ p, c = '/' ∨ GoModule.modPathOK c = true) ∧
      (∀ e ∈ Filepath.splitSlash p, Plain e) := by
  have hcp := CheckPath_checkPath p h
  obtain ⟨hne, helems⟩ := checkPath_unpack p hcp
  refine ⟨?_, ?_, ?_, ?_⟩
  · intro he; subst he; exact hne rfl
  · intro hh
    cases p with
    | nil => cases hh
    | cons c rest =>
      simp only [List.head?_cons, Option.some.injEq] at hh
      subst hh
      have := helems [] (by rw [splitSlash_cons_slash]; simp)
      rw [checkElem_false_nil] at this
      cases this
  · intro c hc
    rcases mem_splitSlash p c hc with h1 | ⟨e, he, hce⟩
    · exact Or.inl h1
    · exact Or.inr (checkElem_chars e c (helems e he) hce)
  · intro e he
    exact checkElem_plain e (helems e he)

theorem CheckPath_no_at (p : GoStr) (h : GoModule.CheckPath p = true) :
    '@' ∉ p := by
  intro hc
  rcases (CheckPath_facts p h).2.2.1 '@' hc with h1 | h1
  · exact absurd h1 (by decide)
  · exact absurd h1 (by decide)

theorem CheckPath_no_newline (p : GoStr) (h : GoModule.CheckPath p = true) :
    '\n' ∉ p := by
  intro hc
  rcases (CheckPath_facts p h).2.2.1 '\n' hc with h1 | h1
  · exact absurd h1 (by decide)
  · exact absurd h1 (by decide)

/-! ## Helper lemmas: `filepath.Base` and the version-suffix regexp -/

theorem base_append (q m : GoStr) (hm : m ≠ []) (hms : '/' ∉ m) :
    Filepath.Base (q ++ '/' :: m) = m := by
  have hmr : ∀ c ∈ m.reverse, (decide ¬(c = '/')) = true := by
    intro c hc
    rw [decide_eq_true_eq]
    intro hh
    exact hms (hh ▸ (List.mem_reverse.mp hc))
  have hrev : (q ++ '/' :: m).reverse = m.reverse ++ '/' :: q.reverse := by
    rw [List.reverse_append, List.reverse_cons, List.append_assoc]
    simp
  have hdrop : ((q ++ '/' :: m).reverse).dropWhile (fun c => c = '/') =
      m.reverse ++ '/' :: q.reverse := by
    rw [hrev]
    cases hm2 : m.reverse with
    | nil => exact absurd (List.reverse_eq_nil_iff.mp hm2) hm
    | cons c0 mr =>
      have hc0 := hmr c0 (by rw [hm2]; simp)
      rw [decide_eq_true_eq] at hc0
      rw [List.cons_append, List.dropWhile_cons, if_neg (by simp [hc0])]
  have htake : (m.reverse ++ '/' :: q.reverse).takeWhile (fun c => c ≠ '/') =
      m.reverse := by
    refine takeWhile_append_all _ _ _ hmr ?_
    intro c hc
    simp only [List.head?_cons, Option.some.injEq] at hc
    subst hc
    decide
  unfold Filepath.Base
  rw [if_neg (by simp : ¬ (q ++ '/' :: m = []))]
  simp only [List.reverse_reverse]
  rw [hdrop, htake, List.reverse_reverse, if_neg hm]

theorem hasMajorSuffix_decomp (q K : GoStr) (hq : q ≠ []) (hK : K ≠ [])
    (hdig : ∀ c ∈ K, isDigit c = true)
    (hnl : ∀ c, q.getLast? = some c → ¬ c = '\n') :
    K6.hasMajorSuffix (q ++ '/' :: 'v' :: K) = true := by
  have hKr : ∀ c ∈ K.reverse, isDigit c = true :=
    fun c hc => hdig c (List.mem_reverse.mp hc)
  have hrev : (q ++ '/' :: 'v' :: K).reverse =
      K.reverse ++ 'v' :: '/' :: q.reverse := by
    rw [List.reverse_append]
    simp [List.append_assoc]
  have hhead : ∀ c : Char, (('v' :: '/' :: q.reverse).head? = some c) →
      isDigit c = false := by
    intro c hc
    simp only [List.head?_cons, Option.some.injEq] at hc
    subst hc
    decide
  have htw := takeWhile_append_all isDigit K.reverse
    ('v' :: '/' :: q.reverse) hKr hhead
  have hdw := dropWhile_append_all isDigit K.reverse
    ('v' :: '/' :: q.reverse) hKr hhead
  unfold K6.hasMajorSuffix
  simp only
  rw [hrev, htw, hdw]
  cases hq2 : q.reverse with
  | nil => exact absurd (List.reverse_eq_nil_iff.mp hq2) hq
  | cons c0 qr =>
    have hc0 : q.getLast? = some c0 := by
      rw [← List.head?_reverse, hq2]
      rfl
    simp [hK, hnl c0 hc0, List.reverse_eq_nil_iff]

theorem clean_plain (p : GoStr) (hne : p ≠ [])
    (hhead : ¬ p.head? = some '/')
    (h : ∀ e ∈ Filepath.splitSlash p, Plain e) :
    Filepath.clean p = p := by
  unfold Filepath.clean
  rw [if_neg hne]
  simp only [if_neg hhead]
  rw [cleanAux_plain _ _ h []]
  simp only [List.reverse_nil, List.nil_append, joinSlash_splitSlash]
  simp [hne]




/-! ## Helper lemmas: environment composition -/

theorem updMap_lookup_self (m : Env.EnvMap) (k v : GoStr) :
    Env.updMap m k v k = some v := by
  simp [Env.updMap]

theorem updMap_lookup_ne (m : Env.EnvMap) (k v : GoStr) (q : GoStr)
    (h : ¬ q = k) : Env.updMap m k v q = m q := by
  simp [Env.updMap, h]

theorem condUpd_lookup_ne (c : Bool) (k v : GoStr) (m : Env.EnvMap)
    (q : GoStr) (h : ¬ q = k) : Env.condUpd c k v m q = m q := by
  cases c <;> simp [Env.condUpd, Env.updMap, h]

/-! ## Claim theorems -/

/-- C10: the environment map `newGoEnv` composes always contains `PATH`
copied from the ambient process environment — even when copying the
ambient Go environment is disabled — and always contains `GOOS` and
`GOARCH` set from the requested platform and `CGO_ENABLED` set from the
Cgo option, these explicitly computed values overriding any value
inherited from the copied environment. -/
theorem newGoEnvMap_explicit_overrides (opts : Env.GoOpts)
    (platform : Env.Platform) (ambientPATH : GoStr) (goEnv : Env.EnvMap) :
    Env.newGoEnvMap opts platform ambientPATH goEnv "PATH".toList =
        some ambientPATH ∧
      Env.newGoEnvMap opts platform ambientPATH goEnv "GOOS".toList =
        some platform.OS ∧
      Env.newGoEnvMap opts platform ambientPATH goEnv "GOARCH".toList =
        some platform.Arch ∧
      Env.newGoEnvMap opts platform ambientPATH goEnv "CGO_ENABLED".toList =
        some (if opts.Cgo then "true".toList else "false".toList) := by
  unfold Env.newGoEnvMap
  refine ⟨?_, ?_, ?_, ?_⟩
  · rw [condUpd_lookup_ne _ _ _ _ _ (by decide),
      condUpd_lookup_ne _ _ _ _ _ (by decide),
      condUpd_lookup_ne _ _ _ _ _ (by decide),
      condUpd_lookup_ne _ _ _ _ _ (by decide),
      condUpd_lookup_ne _ _ _ _ _ (by decide),
      condUpd_lookup_ne _ _ _ _ _ (by decide),
      updMap_lookup_ne _ _ _ _ (by decide),
      updMap_lookup_ne _ _ _ _ (by decide),
      updMap_lookup_ne _ _ _ _ (by decide),
      updMap_lookup_self]
  · rw [condUpd_lookup_ne _ _ _ _ _ (by decide),
      condUpd_lookup_ne _ _ _ _ _ (by decide),
      condUpd_lookup_ne _ _ _ _ _ (by decide),
      condUpd_lookup_ne _ _ _ _ _ (by decide),
      condUpd_lookup_ne _ _ _ _ _ (by decide),
      condUpd_lookup_ne _ _ _ _ _ (by decide),
      updMap_lookup_ne _ _ _ _ (by decide),
      updMap_lookup_ne _ _ _ _ (by decide),
      updMap_lookup_self]
  · rw [condUpd_lookup_ne _ _ _ _ _ (by decide),
      condUpd_lookup_ne _ _ _ _ _ (by decide),
      condUpd_lookup_ne _ _ _ _ _ (by decide),
      condUpd_lookup_ne _ _ _ _ _ (by decide),
      condUpd_lookup_ne _ _ _ _ _ (by decide),
      condUpd_lookup_ne _ _ _ _ _ (by decide),
      updMap_lookup_ne _ _ _ _ (by decide),
      updMap_lookup_self]
  · rw [condUpd_lookup_ne _ _ _ _ _ (by decide),
      condUpd_lookup_ne _ _ _ _ _ (by decide),
      condUpd_lookup_ne _ _ _ _ _ (by decide),
      condUpd_lookup_ne _ _ _ _ _ (by decide),
      condUpd_lookup_ne _ _ _ _ _ (by decide),
      condUpd_lookup_ne _ _ _ _ _ (by decide),
      updMap_lookup_self]

/-- C7 counterexample: in the k6foundry goenv.go revision, `modRequire`
with an empty version passes the bare module path — with no version
attached — to the manifest edit command, contradicting the claim that
the command never receives a path with no version. -/
theorem modRequire_empty_version_cex :
    K6.modRequireArg "go.k6.io/k6".toList [] = "go.k6.io/k6".toList ∧
      '@' ∉ K6.modRequireArg "go.k6.io/k6".toList [] := by
  constructor
  · decide
  · decide

/-- C7 amended: only the earlier k6build goenv revision defaults an
empty version to `latest` before writing the requirement; the k6foundry
goenv.go revision passes the module path with no version attached when
the version is empty. With a nonempty version both append `@version`. -/
theorem modRequire_version_default (p v : GoStr) :
    K6.modRequireArgLegacy p [] = p ++ '@' :: "latest".toList ∧
      K6.modRequireArg p [] = p ∧
      (¬ v = [] → K6.modRequireArg p v = p ++ '@' :: v ∧
        K6.modRequireArgLegacy p v = p ++ '@' :: v) := by
  refine ⟨by simp [K6.modRequireArgLegacy], by simp [K6.modRequireArg],
    fun hv => ⟨by simp [K6.modRequireArg, hv], by simp [K6.modRequireArgLegacy, hv]⟩⟩

theorem modRequire_version_default_witness :
    K6.modRequireArg "go.k6.io/k6".toList "v0.1.0".toList =
      "go.k6.io/k6@v0.1.0".toList := by
  have h := (modRequire_version_default "go.k6.io/k6".toList
    "v0.1.0".toList).2.2 (by decide)
  rw [h.1]
  decide

/-- C5 counterexample: a schedule where cancellation fires at time 0 and
the process survives past the 15-unit grace window — the supervisor
kills the process at time 15 and returns without ever receiving from the
waiter's channel, so the single background waiter is not joined and
outlives the call. -/
theorem runCommand_waiter_leak_cex :
    (Supervisor.runCommand (some 0) 0 20 false).killTime = some 15 ∧
      (Supervisor.runCommand (some 0) 0 20 false).waiterJoined = false := by
  decide

/-- C5 amended: exactly one wait is performed on the process regardless
of the branch taken, and the background waiter is joined before the call
returns in the natural-completion and grace-window-exit branches; in the
forced-kill branch the call returns without joining the waiter, which
outlives the call. -/
theorem runCommand_single_wait (cancelAt : Option Nat) (timeout exitAt : Nat)
    (procErr : Bool) :
    (Supervisor.runCommand cancelAt timeout exitAt procErr).waitCount = 1 ∧
      ((Supervisor.runCommand cancelAt timeout exitAt procErr).killTime =
          none →
        (Supervisor.runCommand cancelAt timeout exitAt procErr).waiterJoined =
          true) ∧
      (¬ (Supervisor.runCommand cancelAt timeout exitAt procErr).killTime =
          none →
        (Supervisor.runCommand cancelAt timeout exitAt procErr).waiterJoined =
          false) := by
  unfold Supervisor.runCommand
  cases Supervisor.effectiveDone cancelAt timeout with
  | none => simp
  | some d =>
    simp only
    split_ifs <;> simp

theorem runCommand_single_wait_witness :
    (Supervisor.runCommand none 0 5 false).waitCount = 1 ∧
      (Supervisor.runCommand none 0 5 false).waiterJoined = true :=
  ⟨(runCommand_single_wait none 0 5 false).1,
    (runCommand_single_wait none 0 5 false).2.1 (by decide)⟩

/-- C4: if the effective context deadline `d` (ambient cancellation or
per-call timeout, whichever is earlier) fires strictly before the
process exits, the supervisor returns the context's error; it does not
kill the process if it exits within the 15-unit grace window, and kills
it exactly at `d + 15` otherwise. If the process completes first (or the
context never fires), the call returns the underlying process error. -/
theorem runCommand_cancellation_spec (cancelAt : Option Nat)
    (timeout exitAt : Nat) (procErr : Bool) :
    (∀ d, Supervisor.effectiveDone cancelAt timeout = some d → d < exitAt →
      (Supervisor.runCommand cancelAt timeout exitAt procErr).result =
          .ctxDone ∧
        (exitAt ≤ d + Supervisor.graceWindow →
          (Supervisor.runCommand cancelAt timeout exitAt procErr).killTime =
            none) ∧
        (d + Supervisor.graceWindow < exitAt →
          (Supervisor.runCommand cancelAt timeout exitAt procErr).killTime =
            some (d + Supervisor.graceWindow))) ∧
      (∀ d, Supervisor.effectiveDone cancelAt timeout = some d → exitAt ≤ d →
        (Supervisor.runCommand cancelAt timeout exitAt procErr).result =
          .completed procErr) ∧
      (Supervisor.effectiveDone cancelAt timeout = none →
        (Supervisor.runCommand cancelAt timeout exitAt procErr).result =
          .completed procErr) := by
  unfold Supervisor.runCommand
  cases he : Supervisor.effectiveDone cancelAt timeout with
  | none =>
    refine ⟨fun d hd => ?_, fun d hd => ?_, fun _ => rfl⟩
    · cases hd
    · cases hd
  | some d0 =>
    refine ⟨?_, ?_, fun hc => by cases hc⟩
    · intro d hd hlt
      simp only [Option.some.injEq] at hd
      subst hd
      simp only
      rw [if_neg (by omega : ¬ exitAt ≤ d0)]
      by_cases h2 : exitAt ≤ d0 + Supervisor.graceWindow
      · rw [if_pos h2]
        exact ⟨rfl, fun _ => rfl, fun hc => absurd h2 (by omega)⟩
      · rw [if_neg h2]
        exact ⟨rfl, fun hc => absurd hc h2, fun _ => rfl⟩
    · intro d hd hle
      simp only [Option.some.injEq] at hd
      subst hd
      simp only
      rw [if_pos hle]

theorem runCommand_cancellation_spec_witness :
    (Supervisor.runCommand (some 3) 0 10 false).result = .ctxDone ∧
      (Supervisor.runCommand (some 3) 0 10 false).killTime = none := by
  have h := (runCommand_cancellation_spec (some 3) 0 10 false).1 3
    (by decide) (by decide)
  exact ⟨h.1, h.2.1 (by decide)⟩

/-! ## Helper lemmas: the build trace -/

theorem mem_ite_lists {α : Type} (P : Prop) [Decidable P] (a : α)
    (l1 l2 : List α) :
    a ∈ (if P then l1 else l2) ↔ (P ∧ a ∈ l1) ∨ (¬ P ∧ a ∈ l2) := by
  split_ifs with h <;> simp [h]

theorem extLoop_no_sink (l : List (Bool × Bool)) : ∀ i,
    Native.BuildEffect.writeSink ∉ (Native.extLoop i l).1 ∧
      Native.BuildEffect.goCompile ∉ (Native.extLoop i l).1 := by
  induction l with
  | nil => intro i; simp [Native.extLoop]
  | cons ok rest ih =>
    intro i
    unfold Native.extLoop
    split_ifs <;> simp [ih (i + 1)]

theorem extLoop_err_kind (l : List (Bool × Bool)) :
    ∀ i e, (Native.extLoop i l).2 = some e →
      ∃ j, e = Native.BuildError.importErr j ∨
        e = Native.BuildError.addModErr j := by
  induction l with
  | nil => intro i e he; cases he
  | cons ok rest ih =>
    intro i e he
    obtain ⟨b1, b2⟩ := ok
    cases b1 with
    | false =>
      simp only [Native.extLoop, Bool.not_eq_true] at he
      simp at he
      exact ⟨i, Or.inl he.symm⟩
    | true =>
      cases b2 with
      | false =>
        simp only [Native.extLoop] at he
        simp at he
        exact ⟨i, Or.inr he.symm⟩
      | true =>
        simp only [Native.extLoop] at he
        simp at he
        exact ih (i + 1) e he

theorem build_unfold (inp : Native.BuildInputs) (h : inp.mkWorkDirOk = true) :
    Native.Build inp =
      (Native.BuildEffect.createWorkspace :: (Native.buildBody inp).1 ++
        (if inp.skipCleanup then []
         else [Native.BuildEffect.removeWorkspace]),
       (Native.buildBody inp).2) := by
  unfold Native.Build
  rw [if_neg (by simp [h])]

theorem writeSink_not_mem_envFx (inp : Native.BuildInputs) :
    Native.BuildEffect.writeSink ∉ Native.envFx inp := by
  simp [Native.envFx, mem_ite_lists]

theorem writeSink_not_mem_preFx (inp : Native.BuildInputs) :
    Native.BuildEffect.writeSink ∉ Native.preFx inp := by
  simp [Native.preFx, Native.envFx, mem_ite_lists,
    (extLoop_no_sink inp.exts 1).1]

theorem buildBody_sink (inp : Native.BuildInputs)
    (hmem : Native.BuildEffect.writeSink ∈ (Native.buildBody inp).1) :
    inp.compileOk = true ∧
      Native.BuildEffect.goCompile ∈ (Native.buildBody inp).1 ∧
      ((Native.buildBody inp).2 = none ∨
        (Native.buildBody inp).2 = some Native.BuildError.copyErr) := by
  unfold Native.buildBody at hmem ⊢
  by_cases hgo : inp.hasGo = true
  swap
  · rw [if_pos (by simp [hgo])] at hmem
    simp at hmem
  rw [if_neg (by simp [hgo])] at hmem ⊢
  by_cases hgit : inp.hasGit = true
  swap
  · rw [if_pos (by simp [hgit])] at hmem
    simp at hmem
  rw [if_neg (by simp [hgit])] at hmem ⊢
  by_cases hcache : (inp.ephemeralCache = true ∧ ¬ inp.mkCacheOk = true)
  · rw [if_pos hcache] at hmem
    simp at hmem
  rw [if_neg hcache] at hmem ⊢
  by_cases hmi : inp.modInitOk = true
  swap
  · rw [if_pos (by simp [hmi])] at hmem
    simp [writeSink_not_mem_envFx inp] at hmem
  rw [if_neg (by simp [hmi])] at hmem ⊢
  by_cases hcm : inp.createMainOk = true
  swap
  · rw [if_pos (by simp [hcm])] at hmem
    simp [writeSink_not_mem_envFx inp] at hmem
  rw [if_neg (by simp [hcm])] at hmem ⊢
  by_cases hak : inp.addK6Ok = true
  swap
  · rw [if_pos (by simp [hak])] at hmem
    simp [writeSink_not_mem_envFx inp] at hmem
  rw [if_neg (by simp [hak])] at hmem ⊢
  cases hext : (Native.extLoop 1 inp.exts).2 with
  | some e0 =>
    rw [hext] at hmem
    simp only [Native.afterExts] at hmem
    simp [writeSink_not_mem_preFx inp] at hmem
  | none =>
    rw [hext] at hmem
    simp only [Native.afterExts] at hmem ⊢
    cases hco : inp.compileOk with
    | false => simp [hco, writeSink_not_mem_preFx inp] at hmem
    | true =>
      cases hop : inp.openOk with
      | false => simp [hco, hop, writeSink_not_mem_preFx inp] at hmem
      | true =>
        cases hcp : inp.copyOk with
        | false => simp [hco, hop, hcp]
        | true => simp [hco, hop, hcp]

theorem sink_mem_build (inp : Native.BuildInputs) (hw : inp.mkWorkDirOk = true)
    (hmem : Native.BuildEffect.writeSink ∈ (Native.Build inp).1) :
    Native.BuildEffect.writeSink ∈ (Native.buildBody inp).1 := by
  rw [build_unfold inp hw] at hmem
  simpa [mem_ite_lists] using hmem

/-- C8: the caller's output sink (`binary`) is written only after the
compile step has fully succeeded — a sink write implies compilation
succeeded and the only error that can accompany it is the final copy
failure; conversely, a build that fails in any earlier step (workspace
creation, environment setup, module init, main generation, dependency
addition, or compilation itself) never writes to the sink. -/
theorem build_sink_only_after_compile (inp : Native.BuildInputs) :
    (Native.BuildEffect.writeSink ∈ (Native.Build inp).1 →
      inp.compileOk = true ∧
        Native.BuildEffect.goCompile ∈ (Native.Build inp).1 ∧
        ((Native.Build inp).2 = none ∨
          (Native.Build inp).2 = some Native.BuildError.copyErr)) ∧
    (∀ e, (Native.Build inp).2 = some e → ¬ e = Native.BuildError.copyErr →
      Native.BuildEffect.writeSink ∉ (Native.Build inp).1) := by
  by_cases hw : inp.mkWorkDirOk = true
  swap
  · unfold Native.Build
    rw [if_pos (by simp [hw])]
    constructor
    · intro hmem; simp at hmem
    · intro e he hne hmem; simp at hmem
  · constructor
    · intro hmem
      obtain ⟨h1, h2, h3⟩ := buildBody_sink inp (sink_mem_build inp hw hmem)
      refine ⟨h1, ?_, ?_⟩
      · rw [build_unfold inp hw]
        simp [h2]
      · rw [build_unfold inp hw]
        simpa using h3
    · intro e he hne hmem
      obtain ⟨_, _, h3⟩ := buildBody_sink inp (sink_mem_build inp hw hmem)
      rw [build_unfold inp hw] at he
      simp only at he
      rcases h3 with h3 | h3
      · rw [he] at h3; cases h3
      · rw [he] at h3
        simp only [Option.some.injEq] at h3
        exact hne h3

theorem build_sink_only_after_compile_witness :
    Native.BuildEffect.writeSink ∉
      (Native.Build ⟨false, false, true, true, true, true, false, true, true,
        [], true, true, true⟩).1 :=
  (build_sink_only_after_compile
    ⟨false, false, true, true, true, true, false, true, true,
      [], true, true, true⟩).2
    Native.BuildError.modInitErr (by decide) (by decide)

/-- C6 counterexample: with the go toolchain missing, `Build` does fail
with the prerequisite error `ErrNoGoToolchain`, but only after the
temporary workspace directory has been created on disk — `os.MkdirTemp`
runs before `newGoEnv` performs the toolchain probe — so the claim that
the failure precedes workspace creation is false (the deferred cleanup
then removes the directory). -/
theorem build_workspace_before_probe_cex :
    (Native.Build ⟨false, false, true, false, true, true, true, true, true,
        [], true, true, true⟩).2 = some .noGoToolchain ∧
      Native.BuildEffect.createWorkspace ∈
        (Native.Build ⟨false, false, true, false, true, true, true, true,
          true, [], true, true, true⟩).1 := by
  constructor
  · decide
  · decide

/-- C6 amended: if the go toolchain or git binary cannot be resolved,
the build fails with the corresponding prerequisite-missing error
(`ErrNoGoToolchain` / `ErrNoGit`) before any go command runs and before
any file generation — but after the temporary workspace directory is
created, which the deferred cleanup then removes (unless retention was
requested). -/
theorem build_prerequisite_failure (inp : Native.BuildInputs)
    (hw : inp.mkWorkDirOk = true) :
    (inp.hasGo = false → Native.Build inp =
      (.createWorkspace :: [.probeGo] ++
        (if inp.skipCleanup then [] else [.removeWorkspace]),
        some .noGoToolchain)) ∧
    (inp.hasGo = true → inp.hasGit = false → Native.Build inp =
      (.createWorkspace :: [.probeGo, .probeGit] ++
        (if inp.skipCleanup then [] else [.removeWorkspace]),
        some .noGit)) ∧
    ((inp.hasGo = false ∨ inp.hasGit = false) →
      Native.BuildEffect.createWorkspace ∈ (Native.Build inp).1 ∧
        Native.BuildEffect.goModInit ∉ (Native.Build inp).1 ∧
        Native.BuildEffect.writeSink ∉ (Native.Build inp).1 ∧
        (inp.skipCleanup = false →
          Native.BuildEffect.removeWorkspace ∈ (Native.Build inp).1)) := by
  have h1 : inp.hasGo = false →
      Native.buildBody inp = ([.probeGo], some .noGoToolchain) := by
    intro hgo
    unfold Native.buildBody
    rw [if_pos (by simp [hgo])]
  have h2 : inp.hasGo = true → inp.hasGit = false →
      Native.buildBody inp = ([.probeGo, .probeGit], some .noGit) := by
    intro hgo hgit
    unfold Native.buildBody
    rw [if_neg (by simp [hgo]), if_pos (by simp [hgit])]
  refine ⟨?_, ?_, ?_⟩
  · intro hgo
    rw [build_unfold inp hw, h1 hgo]
  · intro hgo hgit
    rw [build_unfold inp hw, h2 hgo hgit]
  · intro hfail
    rw [build_unfold inp hw]
    rcases hfail with hgo | hgit
    · rw [h1 hgo]
      exact ⟨by simp, by simp [mem_ite_lists], by simp [mem_ite_lists],
        fun hsc => by simp [hsc]⟩
    · cases hgo : inp.hasGo with
      | false =>
        rw [h1 hgo]
        exact ⟨by simp, by simp [mem_ite_lists], by simp [mem_ite_lists],
          fun hsc => by simp [hsc]⟩
      | true =>
        rw [h2 hgo hgit]
        exact ⟨by simp, by simp [mem_ite_lists], by simp [mem_ite_lists],
          fun hsc => by simp [hsc]⟩

theorem build_prerequisite_failure_witness :
    Native.Build ⟨false, false, true, true, false, true, true, true, true,
        [], true, true, true⟩ =
      ([.createWorkspace, .probeGo, .probeGit, .removeWorkspace],
        some .noGit) := by
  have h := (build_prerequisite_failure
    ⟨false, false, true, true, false, true, true, true, true,
      [], true, true, true⟩ rfl).2.1 rfl rfl
  simpa using h

/-! ## Helper lemmas: `ParseModule` -/

theorem parseModule_unfold (mod path ver : GoStr) (found : Bool)
    (hcut : K6.cutAt mod = (path, ver, found))
    (hfmt : ¬ (found = true ∧ (path = [] ∨ ver = []))) :
    K6.ParseModule mod =
      match K6.versionCheck ver with
      | .error e => .error e
      | .ok version =>
        if GoModule.CheckPath path then .ok ⟨path, version⟩
        else .error .invalidPath := by
  unfold K6.ParseModule
  rw [hcut]
  simp only
  rw [if_neg hfmt]

theorem parseModule_ok_inv (mod : GoStr) (m : K6.Module)
    (h : K6.ParseModule mod = .ok m) :
    GoModule.CheckPath m.PackagePath = true ∧
      (m.Version = "latest".toList ∨
        (Semver.IsValid m.Version = true ∧
          Semver.Canonical m.Version = m.Version ∧
          m.Version.head? = some 'v')) := by
  rcases hc : K6.cutAt mod with ⟨path, c2⟩
  rcases c2 with ⟨ver, found⟩
  unfold K6.ParseModule at h
  rw [hc] at h
  simp only at h
  by_cases hfmt : found = true ∧ (path = [] ∨ ver = [])
  · rw [if_pos hfmt] at h; cases h
  rw [if_neg hfmt] at h
  unfold K6.versionCheck at h
  by_cases h1 : ver = []
  · rw [if_pos h1] at h
    simp only at h
    by_cases hcp : GoModule.CheckPath path = true
    · rw [if_pos hcp] at h
      simp only [Except.ok.injEq] at h
      subst h
      exact ⟨hcp, Or.inl rfl⟩
    · rw [if_neg hcp] at h; cases h
  · rw [if_neg h1] at h
    by_cases h2 : ver = "latest".toList
    · rw [if_pos h2] at h
      simp only at h
      by_cases hcp : GoModule.CheckPath path = true
      · rw [if_pos hcp] at h
        simp only [Except.ok.injEq] at h
        subst h
        exact ⟨hcp, Or.inl h2⟩
      · rw [if_neg hcp] at h; cases h
    · rw [if_neg h2] at h
      by_cases h3 : Semver.IsValid ver = true
      · rw [if_neg (by simp [h3])] at h
        simp only at h
        by_cases hcp : GoModule.CheckPath path = true
        · rw [if_pos hcp] at h
          simp only [Except.ok.injEq] at h
          subst h
          refine ⟨hcp, Or.inr ⟨canonical_isValid ver h3, canonical_idem ver h3, ?_⟩⟩
          obtain ⟨p, hp⟩ := Option.isSome_iff_exists.mp h3
          exact canonical_head ver p hp
        · rw [if_neg hcp] at h; cases h
      · rw [if_pos (by simp [h3])] at h
        cases h

/-- C9: `ParseModule` is stable under re-serialization — parsing
`path@version` built from any successful parse result yields the same
(path, version) pair, because version canonicalization is idempotent and
a valid module path cannot contain the separator. -/
theorem parseModule_reserialize_stable (mod : GoStr) (m : K6.Module)
    (h : K6.ParseModule mod = .ok m) :
    K6.ParseModule (m.PackagePath ++ '@' :: m.Version) = .ok m := by
  obtain ⟨hcp, hver⟩ := parseModule_ok_inv mod m h
  have hnoat : '@' ∉ m.PackagePath := CheckPath_no_at _ hcp
  have hpne : m.PackagePath ≠ [] := (CheckPath_facts _ hcp).1
  have hcut : K6.cutAt (m.PackagePath ++ '@' :: m.Version) =
      (m.PackagePath, m.Version, true) := cutAt_append _ _ hnoat
  have hvne : ¬ m.Version = [] := by
    rcases hver with h1 | ⟨_, _, h3⟩
    · rw [h1]; simp
    · intro hh; rw [hh] at h3; cases h3
  have hfmt : ¬ (true = true ∧ (m.PackagePath = [] ∨ m.Version = [])) := by
    rintro ⟨_, h2 | h2⟩
    · exact hpne h2
    · exact hvne h2
  have hvc : K6.versionCheck m.Version = .ok m.Version := by
    rcases hver with h1 | ⟨hval, hcanon, hhead⟩
    · rw [h1]
      rfl
    · unfold K6.versionCheck
      rw [if_neg hvne, if_neg ?hlat, if_neg (by simp [hval]), hcanon]
      case hlat =>
        intro hh
        rw [hh] at hhead
        exact absurd hhead (by decide)
  rw [parseModule_unfold _ _ _ _ hcut hfmt, hvc]
  simp only
  rw [if_pos hcp]

theorem parseModule_reserialize_stable_witness :
    K6.ParseModule "a.com/x@v1.2.0".toList =
      .ok ⟨"a.com/x".toList, "v1.2.0".toList⟩ := by
  have h := parseModule_reserialize_stable "a.com/x@v1.2".toList
    ⟨"a.com/x".toList, "v1.2.0".toList⟩ (by decide)
  have he : "a.com/x".toList ++ '@' :: "v1.2.0".toList =
      "a.com/x@v1.2.0".toList := by decide
  rw [← he]
  exact h

/-- C2: for every input `path[@version]` that passes the format check,
`ParseModule` normalizes an empty version to `latest`, passes the
literal `latest` through, rejects any other syntactically invalid
semantic version with the invalid-version error, rewrites a valid
version to canonical form, and rejects a path failing import-path syntax
with the invalid-path error, which is distinct from the invalid-version
error. -/
theorem parseModule_version_normalization (mod path ver : GoStr)
    (found : Bool) (hcut : K6.cutAt mod = (path, ver, found))
    (hfmt : ¬ (found = true ∧ (path = [] ∨ ver = []))) :
    (ver = [] → GoModule.CheckPath path = true →
      K6.ParseModule mod = .ok ⟨path, "latest".toList⟩) ∧
    (ver = "latest".toList → GoModule.CheckPath path = true →
      K6.ParseModule mod = .ok ⟨path, ver⟩) ∧
    (¬ ver = [] → ¬ ver = "latest".toList → Semver.IsValid ver = false →
      K6.ParseModule mod = .error .invalidVersion) ∧
    (¬ ver = "latest".toList → Semver.IsValid ver = true →
      GoModule.CheckPath path = true →
      K6.ParseModule mod = .ok ⟨path, Semver.Canonical ver⟩) ∧
    ((ver = [] ∨ ver = "latest".toList ∨ Semver.IsValid ver = true) →
      GoModule.CheckPath path = false →
      K6.ParseModule mod = .error .invalidPath) ∧
    ¬ K6.ParseErr.invalidPath = K6.ParseErr.invalidVersion := by
  rw [parseModule_unfold mod path ver found hcut hfmt]
  refine ⟨?_, ?_, ?_, ?_, ?_, by decide⟩
  · intro hv hcp
    subst hv
    simp [K6.versionCheck, hcp]
  · intro hv hcp
    subst hv
    simp [K6.versionCheck, hcp]
  · intro h1 h2 h3
    have h2l : ¬ ver = ['l', 'a', 't', 'e', 's', 't'] := by simpa using h2
    simp [K6.versionCheck, h1, h2l, h3]
  · intro h2 h3 hcp
    have h1 : ¬ ver = [] := by
      intro hh
      rw [hh] at h3
      exact absurd h3 (by decide)
    have h2l : ¬ ver = ['l', 'a', 't', 'e', 's', 't'] := by simpa using h2
    simp [K6.versionCheck, h1, h2l, h3, hcp]
  · intro hv hcp
    rcases hv with h1 | h2 | h3
    · subst h1
      simp [K6.versionCheck, hcp]
    · subst h2
      simp [K6.versionCheck, hcp]
    · have h1 : ¬ ver = [] := by
        intro hh
        rw [hh] at h3
        exact absurd h3 (by decide)
      by_cases h2 : ver = "latest".toList
      · subst h2
        simp [K6.versionCheck, hcp]
      · have h2l : ¬ ver = ['l', 'a', 't', 'e', 's', 't'] := by simpa using h2
        simp [K6.versionCheck, h1, h2l, h3, hcp]

theorem parseModule_version_normalization_witness :
    K6.ParseModule "example.com/mod@v1.2".toList =
      .ok ⟨"example.com/mod".toList, "v1.2.0".toList⟩ := by
  have h := (parseModule_version_normalization "example.com/mod@v1.2".toList
    "example.com/mod".toList "v1.2".toList true (by decide)
    (by decide)).2.2.2.1 (by decide) (by decide) (by decide)
  rw [h]
  decide

/-- C3: the spec-modelled replace-grammar parser accepts
`path=replacePath[@replaceVersion]` — returning the dependency (with its
version defaulted to `latest` when absent) together with the replacement
pair — and always fails with the format error when the replacement path
is a local filesystem path (prefix `.`) combined with a nonempty
replacement version; it never succeeds by dropping that version. -/
theorem parseModuleR_replace_grammar (p rp rv : GoStr)
    (hpe : '=' ∉ p) (hpa : '@' ∉ p) (hra : '@' ∉ rp) :
    (rp.head? = some '.' → ¬ rv = [] →
      ModuleSpec.ParseModule (p ++ '=' :: (rp ++ '@' :: rv)) =
        .error .invalidFormat) ∧
    (¬ rp.head? = some '.' → GoModule.CheckPath p = true →
      ModuleSpec.ParseModule (p ++ '=' :: (rp ++ '@' :: rv)) =
        .ok ⟨p, "latest".toList, rp, rv⟩) := by
  have hc1 : K6.cutEq (p ++ '=' :: (rp ++ '@' :: rv)) =
      (p, rp ++ '@' :: rv, true) := cutEq_append p _ hpe
  have hc2 : K6.cutAt (rp ++ '@' :: rv) = (rp, rv, true) :=
    cutAt_append rp rv hra
  have hc3 : K6.cutAt p = (p, [], false) := cutAt_no_sep p hpa
  constructor
  · intro hloc hrv
    unfold ModuleSpec.ParseModule
    rw [hc1]
    simp only
    rw [hc2]
    simp only
    rw [if_pos ⟨trivial, hloc, hrv⟩]
  · intro hnloc hcp
    have hpm : K6.ParseModule p = .ok ⟨p, "latest".toList⟩ := by
      have hfmt : ¬ (false = true ∧ (p = [] ∨ ([] : GoStr) = [])) := by
        rintro ⟨hh, _⟩
        cases hh
      rw [parseModule_unfold p p [] false hc3 hfmt]
      simp [K6.versionCheck, hcp]
    unfold ModuleSpec.ParseModule
    rw [hc1]
    simp only
    rw [hc2]
    simp only
    rw [if_neg (by rintro ⟨_, h2, _⟩; exact hnloc h2), hpm]
    simp only
    rw [if_pos trivial]

theorem parseModuleR_replace_grammar_witness :
    ModuleSpec.ParseModule "a.com/x=./loc@v1.0.0".toList =
      .error .invalidFormat := by
  have h := (parseModuleR_replace_grammar "a.com/x".toList "./loc".toList
    "v1.0.0".toList (by decide) (by decide) (by decide)).1
    (by decide) (by decide)
  have he : "a.com/x".toList ++ '=' :: ("./loc".toList ++ '@' ::
      "v1.0.0".toList) = "a.com/x=./loc@v1.0.0".toList := by decide
  rw [← he]
  exact h

/-! ## C1: the versioned-path rule -/

theorem mem_of_getLast {α : Type} (l : List α) (a : α)
    (h : l.getLast? = some a) : a ∈ l := by
  rw [← List.head?_reverse] at h
  cases hr : l.reverse with
  | nil => rw [hr] at h; cases h
  | cons x xs =>
    rw [hr] at h
    simp only [List.head?_cons, Option.some.injEq] at h
    subst h
    exact List.mem_reverse.mp (by rw [hr]; simp)

theorem digit_ne_slash (c : Char) (h : isDigit c = true) : ¬ c = '/' := by
  intro hh
  subst hh
  exact absurd h (by decide)

theorem join_valid_path (p m : GoStr) (hp : GoModule.CheckPath p = true)
    (hmne : m ≠ []) (hms : '/' ∉ m) (hmp : Plain m) :
    Filepath.Join p m = p ++ '/' :: m := by
  obtain ⟨hpne, hphead, _, hplain⟩ := CheckPath_facts p hp
  unfold Filepath.Join
  rw [if_neg (by rintro ⟨h1, _⟩; exact hpne h1), if_neg hpne, if_neg hmne]
  apply clean_plain
  · simp [hpne]
  · cases p with
    | nil => exact absurd rfl hpne
    | cons c rest => simpa using hphead
  · intro e he
    rw [splitSlash_append, splitSlash_no_slash m hms] at he
    rcases List.mem_append.mp he with he | he
    · exact hplain e he
    · simp only [List.mem_singleton] at he
      subst he
      exact hmp

/-- C1: the versioned-path rule, for a valid import path `p`.
If `v` is not a valid semantic version, `p` is returned unchanged.
If `p` ends in a major-version suffix `/vK` (the regexp
`.+/v(\d+)$`), the call returns `p` unchanged when `vK` equals the
major component of `v` and fails when it differs. If `p` has no such
suffix, the result is `p` unchanged when the major component is `v0` or
`v1`, and `p` with `/vN` appended when the major component `vN` is `v2`
or greater (majors carry no leading zeros, so being different from `v0`
and `v1` is the same as `N ≥ 2`). -/
theorem versionedPath_spec (p v : GoStr) (hp : GoModule.CheckPath p = true) :
    (Semver.IsValid v = false → K6.versionedPath p v = some p) ∧
    (∀ q K, Semver.IsValid v = true → p = q ++ '/' :: 'v' :: K →
      ¬ K = [] → K.all isDigit = true →
      (('v' :: K = Semver.Major v → K6.versionedPath p v = some p) ∧
       (¬ 'v' :: K = Semver.Major v → K6.versionedPath p v = none))) ∧
    (Semver.IsValid v = true → K6.hasMajorSuffix p = false →
      ((Semver.Major v = "v0".toList ∨ Semver.Major v = "v1".toList) →
        K6.versionedPath p v = some p) ∧
      (¬ Semver.Major v = "v0".toList → ¬ Semver.Major v = "v1".toList →
        K6.versionedPath p v = some (p ++ '/' :: Semver.Major v))) := by
  refine ⟨?_, ?_, ?_⟩
  · intro hval
    unfold K6.versionedPath
    rw [if_pos (by simp [hval])]
  · intro q K hval hdecomp hKne hKdig
    obtain ⟨hpne, hphead, hchars, _⟩ := CheckPath_facts p hp
    have hdigK : ∀ c ∈ K, isDigit c = true :=
      fun c hc => List.all_eq_true.mp hKdig c hc
    have hqne : q ≠ [] := by
      intro hq
      subst hq
      rw [hdecomp] at hphead
      simp at hphead
    have hnl : ∀ c, q.getLast? = some c → ¬ c = '\n' := by
      intro c hc hcn
      subst hcn
      have hmem : '\n' ∈ p := by
        rw [hdecomp]
        exact List.mem_append.mpr (Or.inl (mem_of_getLast q _ hc))
      exact CheckPath_no_newline p hp hmem
    have hvKs : '/' ∉ 'v' :: K := by
      intro hmem
      rcases List.mem_cons.mp hmem with hh | hh
      · exact absurd hh (by decide)
      · exact digit_ne_slash _ (hdigK _ hh) rfl
    have hsuf : K6.hasMajorSuffix p = true := by
      rw [hdecomp]
      exact hasMajorSuffix_decomp q K hqne hKne hdigK hnl
    have hbase : Filepath.Base p = 'v' :: K := by
      rw [hdecomp]
      exact base_append q ('v' :: K) (by simp) hvKs
    constructor
    · intro heq
      unfold K6.versionedPath
      rw [if_neg (by simp [hval]), if_pos hsuf,
        if_neg (not_not_intro (hbase.trans heq))]
    · intro hne
      unfold K6.versionedPath
      rw [if_neg (by simp [hval]), if_pos hsuf,
        if_pos (by rw [hbase]; exact hne)]
  · intro hval hsuf
    constructor
    · intro h01
      unfold K6.versionedPath
      rw [if_neg (by simp [hval]), if_neg (by simp [hsuf]), if_pos h01]
    · intro h0 h1
      unfold K6.versionedPath
      rw [if_neg (by simp [hval]), if_neg (by simp [hsuf]),
        if_neg (by rintro (hh | hh); exacts [h0 hh, h1 hh])]
      obtain ⟨pp, hpp⟩ := Option.isSome_iff_exists.mp hval
      have hmaj := major_eq v pp hpp
      have hdig : DigitsOK pp.major := (parse_cases v pp hpp).1.1
      have hds : '/' ∉ Semver.Major v := by
        rw [hmaj]
        intro hmem
        rcases List.mem_cons.mp hmem with hh | hh
        · exact absurd hh (by decide)
        · exact digit_ne_slash _ (hdig.2.1 _ hh) rfl
      have hplainm : Plain (Semver.Major v) := by
        rw [hmaj]
        refine ⟨by simp, ?_, ?_⟩
        · intro hh
          injection hh with hh1 _
          exact absurd hh1 (by decide)
        · intro hh
          injection hh with hh1 _
          exact absurd hh1 (by decide)
      rw [join_valid_path p (Semver.Major v) hp (by rw [hmaj]; simp) hds hplainm]

theorem versionedPath_spec_witness :
    K6.versionedPath "example.com/mod".toList "v2.0.0".toList =
      some "example.com/mod/v2".toList := by
  have h := ((versionedPath_spec "example.com/mod".toList "v2.0.0".toList
    (by decide)).2.2 (by decide) (by decide)).2 (by decide) (by decide)
  rw [h]
  decide
